import Mathlib

/-
Verification of the CUDA stream-tracing subsystem of IREE
(`iree/hal/drivers/cuda/tracing.c`).

The C code manages a fixed pool of CUevent-based timestamp primitives:
a free list threaded through `next_in_command_buffer`, per-command-buffer
submission chains threaded through the same field, and a queue of submitted
chain heads threaded through `next_submission`.  We embed the pool as a
`List` of event records indexed by pool position (pointers become `Option
Nat` indices, NULL becomes `none`), and each C function as a pure Lean
function over a context value.  The opaque `CUevent` handle and the Tracy
sink are external collaborators: device query outcomes are supplied by a
`Device` oracle and sink notifications are returned as an explicit list of
`(query_id, gpu_timestamp)` pairs.  Out-of-bounds pointer dereferences,
which are undefined behaviour in the C, are surfaced as explicit error
values and never arise on well-formed states.
-/

set_option linter.unusedVariables false

/-- One pool slot, mirroring `iree_hal_cuda_tracing_context_event_t`
(tracing.c lines 39-44).  The opaque `CUevent` handle is omitted: it is
created once per slot and only ever passed to the device oracle, which we
key by pool index instead. -/
structure TracingEvent where
  next_in_command_buffer : Option Nat := none
  next_submission : Option Nat := none
  was_submitted : Bool := false
deriving DecidableEq, Repr, Inhabited

/-- A caller-owned `{head, tail}` chain handle, mirroring
`iree_hal_cuda_tracing_context_event_list_t`. -/
structure EventList where
  head : Option Nat := none
  tail : Option Nat := none
deriving DecidableEq, Repr, Inhabited

/-- The tracing context, mirroring `iree_hal_cuda_tracing_context_t`
(tracing.c lines 46-91).  The symbols table, mutex, stream, allocators,
Tracy zone id, verbosity and base event are collaborator state with no
bearing on the pool/list/queue logic and are omitted; `query_capacity` is
recovered as `event_pool.length`. -/
structure TracingContext where
  event_freelist_head : Option Nat := none
  submitted_event_list : EventList := {}
  event_pool : List TracingEvent := []
deriving DecidableEq, Repr, Inhabited

/-- Pool lookup `&context->event_pool[i]`; reads past the end of the pool
(undefined behaviour in C) return the default record and are fenced off by
bounds checks in every operation that writes. -/
def evAt (pool : List TracingEvent) (i : Nat) : TracingEvent :=
  pool.getD i default

/-- Capacity of the pool, `context->query_capacity`
(`IREE_ARRAYSIZE(context->event_pool)` in the source). -/
def queryCapacity (ctx : TracingContext) : Nat :=
  ctx.event_pool.length

/-- Device-side oracle standing in for the CUDA driver: for each pool
index, whether `cuEventSynchronize` and `cuEventQuery` report
`CUDA_SUCCESS` for that slot's event during a Collect call, and the
already-converted `int64_t` timestamp
`(int64_t)((double)relative_millis * 1000000.0)` that
`cuEventElapsedTime` against the base event yields (the float arithmetic
itself carries no claim and is not modelled). -/
structure Device where
  sync_ok : Nat → Bool
  query_ok : Nat → Bool
  elapsed : Nat → Int

/-- Successful-path result of `iree_hal_cuda_tracing_context_allocate`
(tracing.c lines 148-171), parameterised by the pool capacity (fixed to
`16*1024 - 256` in the source).  The loop links slot `i-1` to slot `i`,
nulls the last slot's chain link, and zeroes `next_submission` /
`was_submitted` on every slot; the free-list head is set to `&event_pool[0]`
before the loop (line 154) and the submission queue starts empty
(lines 142-143). -/
def iree_hal_cuda_tracing_context_allocate (query_capacity : Nat) :
    TracingContext :=
  { event_freelist_head := some 0
    submitted_event_list := {}
    event_pool := (List.range query_capacity).map fun i =>
      { next_in_command_buffer :=
          if i + 1 = query_capacity then none else some (i + 1)
        next_submission := none
        was_submitted := false } }

/-- Fatal outcomes of the insert-query paths: `assertFailure` models an
`IREE_ASSERT` firing and `nullDeref` / `wildPointer` model dereferencing a
NULL or out-of-bounds event pointer (undefined behaviour in the C). -/
inductive InsertErr where
  | nullDeref
  | assertFailure
  | wildPointer
deriving DecidableEq, Repr

/-- `iree_hal_cuda_tracing_context_event_list_append_event`
(tracing.c lines 354-364): append `e` to the chain, linking the previous
tail's `next_in_command_buffer` to it.  Returns `none` when the C would
dereference a NULL or out-of-bounds tail pointer on an ill-formed handle. -/
def iree_hal_cuda_tracing_context_event_list_append_event
    (pool : List TracingEvent) (event_list : EventList) (e : Nat) :
    Option (List TracingEvent × EventList) :=
  match event_list.head with
  | none => some (pool, { head := some e, tail := some e })
  | some _ =>
    match event_list.tail with
    | none => none
    | some t =>
      if t < pool.length then
        some (pool.set t { evAt pool t with next_in_command_buffer := some e },
              { event_list with tail := some e })
      else none

/-- `iree_hal_cuda_stream_tracing_context_insert_query`
(tracing.c lines 369-391): pop the free-list head, assert that the popped
event's `next_in_command_buffer` is non-NULL (`IREE_ASSERT`, line 382),
null that link, record the event on the stream (device side effect, not
modelled), and append the event to the caller's chain.  Returns the pool
index as the query id.  A pop from an empty free list dereferences the
NULL head pointer (`event->next_in_command_buffer` with `event == NULL`). -/
def iree_hal_cuda_stream_tracing_context_insert_query
    (ctx : TracingContext) (event_list : EventList) :
    Except InsertErr (TracingContext × EventList × Nat) :=
  match ctx.event_freelist_head with
  | none => .error .nullDeref
  | some e =>
    if e < ctx.event_pool.length then
      let ev := evAt ctx.event_pool e
      let query_id := e
      if ev.next_in_command_buffer = none then .error .assertFailure
      else
        let pool₁ := ctx.event_pool.set e
            { ev with next_in_command_buffer := none }
        match iree_hal_cuda_tracing_context_event_list_append_event
            pool₁ event_list e with
        | none => .error .wildPointer
        | some (pool₂, el₂) =>
          .ok ({ ctx with event_freelist_head := ev.next_in_command_buffer
                          event_pool := pool₂ }, el₂, query_id)
    else .error .wildPointer

/-- `iree_hal_cuda_graph_tracing_context_insert_query`
(tracing.c lines 397-425): identical pool mechanics to the stream variant
but records the event via `cuGraphAddEventRecordNode` and asserts that the
returned status is OK (line 419); `record_ok` supplies that status. -/
def iree_hal_cuda_graph_tracing_context_insert_query
    (ctx : TracingContext) (event_list : EventList) (record_ok : Bool) :
    Except InsertErr (TracingContext × EventList × Nat) :=
  match ctx.event_freelist_head with
  | none => .error .nullDeref
  | some e =>
    if e < ctx.event_pool.length then
      let ev := evAt ctx.event_pool e
      let query_id := e
      if ev.next_in_command_buffer = none then .error .assertFailure
      else
        let pool₁ := ctx.event_pool.set e
            { ev with next_in_command_buffer := none }
        if record_ok = false then .error .assertFailure
        else
          match iree_hal_cuda_tracing_context_event_list_append_event
              pool₁ event_list e with
          | none => .error .wildPointer
          | some (pool₂, el₂) =>
            .ok ({ ctx with event_freelist_head := ev.next_in_command_buffer
                            event_pool := pool₂ }, el₂, query_id)
    else .error .wildPointer

/-- `iree_hal_cuda_tracing_notify_submitted` (tracing.c lines 288-309):
no-op when the chain is empty; otherwise append the chain's head to the
tail of the submission queue, extending the previous tail's
`next_submission` link.  The caller's chain handle is left untouched.
Returns `none` when the C would dereference a NULL/out-of-bounds queue
tail on an ill-formed context. -/
def iree_hal_cuda_tracing_notify_submitted
    (ctx : TracingContext) (event_list : EventList) :
    Option TracingContext :=
  match event_list.head with
  | none => some ctx
  | some h =>
    match ctx.submitted_event_list.head with
    | none =>
      some { ctx with submitted_event_list := { head := some h, tail := some h } }
    | some _ =>
      match ctx.submitted_event_list.tail with
      | none => none
      | some t =>
        if t < ctx.event_pool.length then
          some { ctx with
            event_pool := ctx.event_pool.set t
              { evAt ctx.event_pool t with next_submission := some h }
            submitted_event_list :=
              { ctx.submitted_event_list with tail := some h } }
        else none

/-- The zero-timestamp walk inside `iree_hal_cuda_tracing_free`
(tracing.c lines 330-337): for every node of a never-submitted chain,
`iree_tracing_gpu_zone_notify(context->id, query_id, 0)` is issued in
chain order.  Fuel-based recursion since the links live in the pool. -/
def tracing_free_zero_notifications (pool : List TracingEvent) :
    Nat → Option Nat → List (Nat × Int)
  | 0, _ => []
  | _, none => []
  | fuel + 1, some e =>
    (e, 0) :: tracing_free_zero_notifications pool fuel
      (evAt pool e).next_in_command_buffer

/-- `iree_hal_cuda_tracing_free` (tracing.c lines 311-352): reclaim a
chain.  If the chain is empty, no-op.  If the chain head was never
submitted, emit a zero-valued notification per node.  Then: if the context
free list is empty, install the chain head as the free list and return
early (the head's fields and the caller's handle are left untouched,
lines 339-343); otherwise reset `next_submission`/`was_submitted` on the
head, splice the chain onto the free-list front through the tail's
`next_in_command_buffer`, and null the caller's handle (lines 344-350).
Result: `(new context, caller's handle after the call, notifications)`;
`none` marks a NULL/out-of-bounds tail dereference on an ill-formed
handle. -/
def iree_hal_cuda_tracing_free
    (ctx : TracingContext) (event_list : EventList) :
    Option (TracingContext × EventList × List (Nat × Int)) :=
  match event_list.head with
  | none => some (ctx, event_list, [])
  | some h =>
    if h < ctx.event_pool.length then
      let notifs :=
        if (evAt ctx.event_pool h).was_submitted = false then
          tracing_free_zero_notifications ctx.event_pool
            (ctx.event_pool.length) (some h)
        else []
      match ctx.event_freelist_head with
      | none =>
        some ({ ctx with event_freelist_head := some h }, event_list, notifs)
      | some _ =>
        match event_list.tail with
        | none => none
        | some t =>
          if t < ctx.event_pool.length then
            let pool₁ := ctx.event_pool.set h
                { evAt ctx.event_pool h with
                    next_submission := none, was_submitted := false }
            let pool₂ := pool₁.set t
                { evAt pool₁ t with
                    next_in_command_buffer := ctx.event_freelist_head }
            some ({ ctx with event_freelist_head := some h
                             event_pool := pool₂ },
                  { head := none, tail := none }, notifs)
          else none
    else none

/-- The inner per-event loop of `iree_hal_cuda_tracing_context_collect`
(tracing.c lines 258-277): walk a chain's `next_in_command_buffer` links;
for each event first `cuEventSynchronize` then `cuEventQuery`, breaking at
the first failure of either, and otherwise notify the sink with
`(query_id, gpu_timestamp)` and continue. -/
def collect_walk (pool : List TracingEvent) (dev : Device) :
    Nat → Option Nat → List (Nat × Int)
  | 0, _ => []
  | _, none => []
  | fuel + 1, some e =>
    if dev.sync_ok e then
      if dev.query_ok e then
        (e, dev.elapsed e) :: collect_walk pool dev fuel
          (evAt pool e).next_in_command_buffer
      else []
    else []

/-- The outer per-command-buffer loop of
`iree_hal_cuda_tracing_context_collect` (tracing.c lines 255-282): for
each queue entry, run the inner walk, then read the head's
`next_submission`, set `was_submitted = true` on the head, and advance
`submitted_event_list.head` — unconditionally, even when the inner walk
broke early.  The queue tail is not updated. -/
def collect_loop (dev : Device) :
    Nat → TracingContext → TracingContext × List (Nat × Int)
  | 0, ctx => (ctx, [])
  | fuel + 1, ctx =>
    match ctx.submitted_event_list.head with
    | none => (ctx, [])
    | some h =>
      let notifs := collect_walk ctx.event_pool dev
        ctx.event_pool.length (some h)
      let next := (evAt ctx.event_pool h).next_submission
      let ctx₁ : TracingContext :=
        { ctx with
            event_pool := ctx.event_pool.set h
              { evAt ctx.event_pool h with was_submitted := true }
            submitted_event_list :=
              { ctx.submitted_event_list with head := next } }
      let rest := collect_loop dev fuel ctx₁
      (rest.1, notifs ++ rest.2)

/-- `iree_hal_cuda_tracing_context_collect` (tracing.c lines 236-286):
returns immediately when the submission queue is empty, otherwise drains
it with `collect_loop`.  The fuel `event_pool.length + 1` dominates the
queue length on every well-formed state. -/
def iree_hal_cuda_tracing_context_collect
    (ctx : TracingContext) (dev : Device) :
    TracingContext × List (Nat × Int) :=
  match ctx.submitted_event_list.head with
  | none => (ctx, [])
  | some _ => collect_loop dev (ctx.event_pool.length + 1) ctx

/-- Iterated stream-variant InsertQuery: perform `k` insertions into one
chain, failing fatally as soon as one does. -/
def insertN :
    Nat → TracingContext → EventList →
    Except InsertErr (TracingContext × EventList × List Nat)
  | 0, ctx, el => .ok (ctx, el, [])
  | k + 1, ctx, el =>
    match iree_hal_cuda_stream_tracing_context_insert_query ctx el with
    | .error err => .error err
    | .ok (ctx₁, el₁, id) =>
      match insertN k ctx₁ el₁ with
      | .error err => .error err
      | .ok (ctx₂, el₂, ids) => .ok (ctx₂, el₂, id :: ids)

/-- The abstract shape of an intrusive singly-linked list: starting from
pointer `start`, following the link selected by `f` spells out exactly the
index list `L` and ends at NULL.  Both the free list and the
per-command-buffer chains (`f` reading `next_in_command_buffer`) and the
submission queue of chain heads (`f` reading `next_submission`) are
instances. -/
def Spells (pool : List TracingEvent) (f : TracingEvent → Option Nat) :
    Option Nat → List Nat → Prop
  | start, [] => start = none
  | start, i :: L =>
    start = some i ∧ i < pool.length ∧ Spells pool f (f (evAt pool i)) L

instance instDecidableSpells (pool : List TracingEvent)
    (f : TracingEvent → Option Nat) :
    (start : Option Nat) → (L : List Nat) → Decidable (Spells pool f start L)
  | start, [] => by unfold Spells; infer_instance
  | start, i :: L =>
    have : Decidable (Spells pool f (f (evAt pool i)) L) :=
      instDecidableSpells pool f _ L
    by unfold Spells; infer_instance

/-- Link selector for chains and the free list. -/
def nicb (e : TracingEvent) : Option Nat := e.next_in_command_buffer

/-- Link selector for the submission queue of chain heads. -/
def nsub (e : TracingEvent) : Option Nat := e.next_submission

/-- A caller chain handle is well formed for node list `L` when its head
spells `L` through the chain links and its tail caches `L`'s last node. -/
def ChainWF (pool : List TracingEvent) (el : EventList) (L : List Nat) :
    Prop :=
  Spells pool nicb el.head L ∧ el.tail = L.getLast?

/-- The submission queue spells the list of chains `Qs`: each queue entry
is a non-empty chain `h :: L`, the queue link of entry `h` points at the
next entry's head, and each entry's chain links spell out its node list. -/
def QueueSpelled (pool : List TracingEvent) :
    Option Nat → List (List Nat) → Prop
  | start, [] => start = none
  | _, [] :: _ => False
  | start, (h :: L) :: Qs =>
    start = some h ∧ Spells pool nicb (some h) (h :: L) ∧
      QueueSpelled pool (nsub (evAt pool h)) Qs

instance instDecidableQueueSpelled (pool : List TracingEvent) :
    (start : Option Nat) → (Qs : List (List Nat)) →
      Decidable (QueueSpelled pool start Qs)
  | start, [] => by unfold QueueSpelled; infer_instance
  | _, [] :: _ => by unfold QueueSpelled; infer_instance
  | start, (h :: L) :: Qs =>
    have : Decidable (QueueSpelled pool (nsub (evAt pool h)) Qs) :=
      instDecidableQueueSpelled pool _ Qs
    by unfold QueueSpelled; infer_instance

/-- Heads of the queued chains, in queue order. -/
def queueHeads (Qs : List (List Nat)) : List Nat :=
  Qs.map fun L => L.headI

/-- Pool state after Collect has marked the heads `hs` as submitted, in
queue order. -/
def mark_heads (pool : List TracingEvent) (hs : List Nat) :
    List TracingEvent :=
  hs.foldl (fun p h => p.set h { evAt p h with was_submitted := true }) pool

/-- Predicate for an event whose device work resolved at Collect time:
both `cuEventSynchronize` and `cuEventQuery` returned `CUDA_SUCCESS`. -/
def collectOk (dev : Device) (i : Nat) : Bool :=
  dev.sync_ok i && dev.query_ok i

/-- Per-chain sink output of a Collect walk: notifications for the longest
prefix of the chain whose events both synchronize and query successfully. -/
def chainNotifs (dev : Device) (L : List Nat) : List (Nat × Int) :=
  (L.takeWhile (collectOk dev)).map fun i => (i, dev.elapsed i)

instance instDecidableEqExcept {e a : Type} [DecidableEq e]
    [DecidableEq a] : DecidableEq (Except e a) := fun x y =>
  match x, y with
  | .error u, .error v =>
    if h : u = v then .isTrue (by rw [h])
    else .isFalse (by intro hc; cases hc; exact h rfl)
  | .error _, .ok _ => .isFalse (by intro hc; cases hc)
  | .ok _, .error _ => .isFalse (by intro hc; cases hc)
  | .ok u, .ok v =>
    if h : u = v then .isTrue (by rw [h])
    else .isFalse (by intro hc; cases hc; exact h rfl)

/-- A client-visible system state: the tracing context plus the chain
handles currently held by command buffers that have not yet been
submitted or reclaimed. -/
structure SysState where
  ctx : TracingContext
  chains : List EventList
deriving DecidableEq, Repr

/-- One step of the client protocol over the tracing context: create an
empty chain handle, insert a query into a held chain (only when the call
succeeds — staying within pool capacity), submit a held chain
(`NotifySubmitted`), or reclaim a held chain (`Free`).  Submitting or
freeing consumes the handle (the slot reverts to an empty handle): this
encodes the documented single-use protocol — a chain is either submitted
or discarded, never both, and a handle is not reused after Free. -/
inductive SysStep : SysState → SysState → Prop
  | newChain (s : SysState) :
      SysStep s ⟨s.ctx, s.chains ++ [⟨none, none⟩]⟩
  | insert (s : SysState) (k : Nat) (ctx' : TracingContext)
      (el' : EventList) (id : Nat) (hk : k < s.chains.length)
      (hok : iree_hal_cuda_stream_tracing_context_insert_query s.ctx
        (s.chains.getD k ⟨none, none⟩) = .ok (ctx', el', id)) :
      SysStep s ⟨ctx', s.chains.set k el'⟩
  | notify (s : SysState) (k : Nat) (ctx' : TracingContext)
      (hk : k < s.chains.length)
      (hok : iree_hal_cuda_tracing_notify_submitted s.ctx
        (s.chains.getD k ⟨none, none⟩) = some ctx') :
      SysStep s ⟨ctx', s.chains.set k ⟨none, none⟩⟩
  | free (s : SysState) (k : Nat) (ctx' : TracingContext)
      (el' : EventList) (ns : List (Nat × Int))
      (hk : k < s.chains.length)
      (hok : iree_hal_cuda_tracing_free s.ctx
        (s.chains.getD k ⟨none, none⟩) = some (ctx', el', ns)) :
      SysStep s ⟨ctx', s.chains.set k ⟨none, none⟩⟩

/-- States reachable from a freshly allocated context by the client
protocol. -/
inductive SysReachable : SysState → Prop
  | init (n : Nat) (hn : 1 ≤ n) :
      SysReachable ⟨iree_hal_cuda_tracing_context_allocate n, []⟩
  | step {s s' : SysState} :
      SysReachable s → SysStep s s' → SysReachable s'

/-- The partition property of C5: there are lists F (free list), one node
list per held chain, and one node list per queued chain, spelled out by
the corresponding intrusive links, whose concatenation is a permutation of
all pool indices — so every primitive belongs to exactly one of the free
list, one unsubmitted chain, or the submission queue, with no duplication
and no loss. -/
def EventPartition (s : SysState) : Prop :=
  ∃ (F : List Nat) (CLs : List (List Nat)) (Qs : List (List Nat)),
    Spells s.ctx.event_pool nicb s.ctx.event_freelist_head F ∧
    CLs.length = s.chains.length ∧
    (∀ k, k < s.chains.length →
      ChainWF s.ctx.event_pool (s.chains.getD k ⟨none, none⟩)
        (CLs.getD k [])) ∧
    QueueSpelled s.ctx.event_pool s.ctx.submitted_event_list.head Qs ∧
    (F ++ CLs.flatten ++ Qs.flatten).Perm
      (List.range s.ctx.event_pool.length)

/-- The inductive strengthening of `EventPartition`: additionally the
queue tail field caches the last queued chain head, all free-list and
chain nodes have a null queue link, and (collection being outside this
protocol) no slot is marked submitted. -/
def SysInv (s : SysState) : Prop :=
  ∃ (F : List Nat) (CLs : List (List Nat)) (Qs : List (List Nat)),
    Spells s.ctx.event_pool nicb s.ctx.event_freelist_head F ∧
    CLs.length = s.chains.length ∧
    (∀ k, k < s.chains.length →
      ChainWF s.ctx.event_pool (s.chains.getD k ⟨none, none⟩)
        (CLs.getD k [])) ∧
    QueueSpelled s.ctx.event_pool s.ctx.submitted_event_list.head Qs ∧
    (Qs ≠ [] →
      s.ctx.submitted_event_list.tail = (queueHeads Qs).getLast?) ∧
    (∀ i ∈ F ++ CLs.flatten, nsub (evAt s.ctx.event_pool i) = none) ∧
    (∀ i, i < s.ctx.event_pool.length →
      (evAt s.ctx.event_pool i).was_submitted = false) ∧
    (F ++ CLs.flatten ++ Qs.flatten).Perm
      (List.range s.ctx.event_pool.length)

theorem evAt_set_self {pool : List TracingEvent} {i : Nat}
    (h : i < pool.length) (e : TracingEvent) :
    evAt (pool.set i e) i = e := by
  simp [evAt, List.getD, List.getElem?_set_self h]

theorem evAt_set_ne {pool : List TracingEvent} {i j : Nat}
    (h : i ≠ j) (e : TracingEvent) :
    evAt (pool.set i e) j = evAt pool j := by
  simp [evAt, List.getD, List.getElem?_set_ne h]

theorem length_set_pool (pool : List TracingEvent) (i : Nat)
    (e : TracingEvent) : (pool.set i e).length = pool.length :=
  List.length_set ..

theorem evAt_set (pool : List TracingEvent) (j i : Nat) (e : TracingEvent) :
    evAt (pool.set j e) i =
      if j = i ∧ j < pool.length then e else evAt pool i := by
  by_cases hji : j = i
  · subst hji
    by_cases hlt : j < pool.length
    · simp [hlt, evAt_set_self hlt]
    · have : pool.set j e = pool := List.set_eq_of_length_le (Nat.le_of_not_lt hlt)
      simp [hlt, this]
  · simp [hji, evAt_set_ne hji]

theorem Spells_start_cons {pool : List TracingEvent}
    {f : TracingEvent → Option Nat} {start : Option Nat} {i : Nat}
    {L : List Nat} (h : Spells pool f start (i :: L)) : start = some i :=
  h.1

theorem Spells_mem_lt {pool : List TracingEvent}
    {f : TracingEvent → Option Nat} :
    ∀ {start : Option Nat} {L : List Nat}, Spells pool f start L →
      ∀ i ∈ L, i < pool.length := by
  intro start L
  induction L generalizing start with
  | nil => intro _ i hi; cases hi
  | cons j L ih =>
    intro h i hi
    obtain ⟨h1, h2, h3⟩ := h
    rcases List.mem_cons.mp hi with rfl | hi
    · exact h2
    · exact ih h3 i hi

theorem Spells_congr {pool pool' : List TracingEvent}
    {f : TracingEvent → Option Nat}
    (hlen : pool'.length = pool.length)
    (hf : ∀ i, f (evAt pool' i) = f (evAt pool i)) :
    ∀ {start : Option Nat} {L : List Nat},
      Spells pool f start L → Spells pool' f start L := by
  intro start L
  induction L generalizing start with
  | nil => intro h; exact h
  | cons i L ih =>
    intro h
    obtain ⟨h1, h2, h3⟩ := h
    refine ⟨h1, hlen ▸ h2, ?_⟩
    rw [hf]
    exact ih h3

theorem Spells_set_of_not_mem {pool : List TracingEvent}
    {f : TracingEvent → Option Nat} {j : Nat} {e : TracingEvent} :
    ∀ {start : Option Nat} {L : List Nat},
      Spells pool f start L → j ∉ L → Spells (pool.set j e) f start L := by
  intro start L
  induction L generalizing start with
  | nil => intro h _; exact h
  | cons i L ih =>
    intro h hj
    obtain ⟨h1, h2, h3⟩ := h
    have hji : j ≠ i := fun hc => hj (hc ▸ List.mem_cons_self i L)
    refine ⟨h1, by simpa using h2, ?_⟩
    rw [evAt_set_ne hji]
    exact ih h3 (fun hc => hj (List.mem_cons_of_mem i hc))

theorem QueueSpelled_congr {pool pool' : List TracingEvent}
    (hlen : pool'.length = pool.length)
    (hnicb : ∀ i, nicb (evAt pool' i) = nicb (evAt pool i))
    (hnsub : ∀ i, nsub (evAt pool' i) = nsub (evAt pool i)) :
    ∀ {start : Option Nat} {Qs : List (List Nat)},
      QueueSpelled pool start Qs → QueueSpelled pool' start Qs := by
  intro start Qs
  induction Qs generalizing start with
  | nil => intro h; exact h
  | cons Q Qs ih =>
    intro h
    match Q, h with
    | q :: L, ⟨h1, h2, h3⟩ =>
      refine ⟨h1, Spells_congr hlen hnicb h2, ?_⟩
      rw [hnsub]
      exact ih h3

theorem nicb_evAt_set_preserve {pool : List TracingEvent} {h : Nat}
    {e : TracingEvent} (hn : nicb e = nicb (evAt pool h)) (i : Nat) :
    nicb (evAt (pool.set h e) i) = nicb (evAt pool i) := by
  rw [evAt_set]
  by_cases hc : h = i ∧ h < pool.length
  · obtain ⟨rfl, hlt⟩ := hc
    rw [if_pos ⟨rfl, hlt⟩]
    exact hn
  · simp [hc]

theorem nsub_evAt_set_preserve {pool : List TracingEvent} {h : Nat}
    {e : TracingEvent} (hn : nsub e = nsub (evAt pool h)) (i : Nat) :
    nsub (evAt (pool.set h e) i) = nsub (evAt pool i) := by
  rw [evAt_set]
  by_cases hc : h = i ∧ h < pool.length
  · obtain ⟨rfl, hlt⟩ := hc
    rw [if_pos ⟨rfl, hlt⟩]
    exact hn
  · simp [hc]

theorem collect_walk_spells {pool : List TracingEvent} {dev : Device} :
    ∀ {L : List Nat} {start : Option Nat} {fuel : Nat},
      Spells pool nicb start L → L.length ≤ fuel →
      collect_walk pool dev fuel start =
        (L.takeWhile (collectOk dev)).map fun i => (i, dev.elapsed i) := by
  intro L
  induction L with
  | nil =>
    intro start fuel h _
    cases h
    cases fuel <;> simp [collect_walk]
  | cons i L ih =>
    intro start fuel h hfuel
    obtain ⟨h1, h2, h3⟩ := h
    subst h1
    match fuel, hfuel with
    | f + 1, hfuel =>
      by_cases hs : dev.sync_ok i
      · by_cases hq : dev.query_ok i
        · have hok : collectOk dev i = true := by simp [collectOk, hs, hq]
          have hrec : collect_walk pool dev f
              (evAt pool i).next_in_command_buffer =
              (L.takeWhile (collectOk dev)).map fun j => (j, dev.elapsed j) :=
            ih h3 (Nat.le_of_succ_le_succ hfuel)
          simp only [collect_walk, hs, hq, if_true, List.takeWhile_cons, hok,
            List.map_cons]
          rw [hrec]
        · have hok : collectOk dev i = false := by
            simp [collectOk, hs, hq]
          simp [collect_walk, hs, hq, List.takeWhile_cons, hok]
      · have hok : collectOk dev i = false := by simp [collectOk, hs]
        simp [collect_walk, hs, List.takeWhile_cons, hok]

theorem tracing_free_zero_notifications_spells {pool : List TracingEvent} :
    ∀ {L : List Nat} {start : Option Nat} {fuel : Nat},
      Spells pool nicb start L → L.length ≤ fuel →
      tracing_free_zero_notifications pool fuel start =
        L.map fun i => ((i, 0) : Nat × Int) := by
  intro L
  induction L with
  | nil =>
    intro start fuel h _
    cases h
    cases fuel <;> simp [tracing_free_zero_notifications]
  | cons i L ih =>
    intro start fuel h hfuel
    obtain ⟨h1, h2, h3⟩ := h
    subst h1
    match fuel, hfuel with
    | f + 1, hfuel =>
      have hrec : tracing_free_zero_notifications pool f
          (evAt pool i).next_in_command_buffer =
          L.map fun j => ((j, 0) : Nat × Int) :=
        ih h3 (Nat.le_of_succ_le_succ hfuel)
      simp only [tracing_free_zero_notifications, List.map_cons]
      rw [hrec]

theorem collect_loop_spec {dev : Device} :
    ∀ {Qs : List (List Nat)} {fh shead stail : Option Nat}
      {pool : List TracingEvent} {fuel : Nat},
      QueueSpelled pool shead Qs →
      (∀ L ∈ Qs, L.length ≤ pool.length) →
      Qs.length ≤ fuel →
      collect_loop dev fuel ⟨fh, ⟨shead, stail⟩, pool⟩ =
        (⟨fh, ⟨none, stail⟩, mark_heads pool (queueHeads Qs)⟩,
         (Qs.map (chainNotifs dev)).flatten) := by
  intro Qs
  induction Qs with
  | nil =>
    intro fh shead stail pool fuel hq _ _
    have hhead : shead = none := hq
    subst hhead
    cases fuel <;> simp [collect_loop, mark_heads, queueHeads]
  | cons Q Qs ih =>
    intro fh shead stail pool fuel hq hlen hfuel
    match Q, hq with
    | h :: L, ⟨h1, h2, h3⟩ =>
      subst h1
      match fuel, hfuel with
      | f + 1, hfuel =>
        have hwalk : collect_walk pool dev pool.length (some h) =
            chainNotifs dev (h :: L) :=
          collect_walk_spells h2 (hlen _ (List.mem_cons_self _ _))
        have hlen₁ : (pool.set h
            { evAt pool h with was_submitted := true }).length = pool.length :=
          List.length_set ..
        have hq₁ : QueueSpelled
            (pool.set h { evAt pool h with was_submitted := true })
            ((evAt pool h).next_submission) Qs :=
          QueueSpelled_congr hlen₁ (nicb_evAt_set_preserve rfl)
            (nsub_evAt_set_preserve rfl) h3
        have hrec := @ih fh ((evAt pool h).next_submission) stail
          (pool.set h { evAt pool h with was_submitted := true }) f hq₁
          (fun L' hL' => hlen₁ ▸ hlen L' (List.mem_cons_of_mem _ hL'))
          (Nat.le_of_succ_le_succ hfuel)
        simp only [collect_loop]
        rw [hwalk, hrec]
        simp [mark_heads, queueHeads]

theorem iree_hal_cuda_tracing_context_collect_spec {dev : Device}
    {Qs : List (List Nat)} {fh shead stail : Option Nat}
    {pool : List TracingEvent}
    (hq : QueueSpelled pool shead Qs)
    (hlen : ∀ L ∈ Qs, L.length ≤ pool.length)
    (hqlen : Qs.length ≤ pool.length) :
    iree_hal_cuda_tracing_context_collect ⟨fh, ⟨shead, stail⟩, pool⟩ dev =
      (⟨fh, ⟨none, stail⟩, mark_heads pool (queueHeads Qs)⟩,
       (Qs.map (chainNotifs dev)).flatten) := by
  cases Qs with
  | nil =>
    have hhead : shead = none := hq
    subst hhead
    simp [iree_hal_cuda_tracing_context_collect, mark_heads, queueHeads]
  | cons Q Qs =>
    match Q, hq with
    | h :: L, ⟨h1, h2, h3⟩ =>
      subst h1
      exact collect_loop_spec ⟨rfl, h2, h3⟩ hlen (Nat.le_succ_of_le hqlen)

theorem getLast?_not_mem_dropLast {L : List Nat} {t : Nat}
    (hnd : L.Nodup) (hl : L.getLast? = some t) : t ∉ L.dropLast := by
  have hne : L ≠ [] := by
    intro hc; rw [hc] at hl; cases hl
  have hsplit : L.dropLast ++ [L.getLast hne] = L :=
    List.dropLast_append_getLast hne
  have ht : L.getLast hne = t := by
    have := List.getLast_eq_iff_getLast?_eq_some hne |>.mpr hl
    exact this
  rw [← hsplit, ht] at hnd
  have := List.disjoint_of_nodup_append hnd
  intro hc
  exact this hc (List.mem_singleton_self t)

/-- Splicing: if the chain links spell `L` from `start`, `t` is `L`'s last
node and occurs only there, and after redirecting `t`'s chain link to
`flh` the list `F` is spelled from `flh`, then from `start` the links
spell `L ++ F`. -/
theorem Spells_splice {pool : List TracingEvent} {F : List Nat}
    {flh : Option Nat} {t : Nat} :
    ∀ {L : List Nat} {start : Option Nat},
      Spells pool nicb start L →
      L.getLast? = some t →
      t ∉ L.dropLast →
      Spells (pool.set t { evAt pool t with next_in_command_buffer := flh })
        nicb flh F →
      Spells (pool.set t { evAt pool t with next_in_command_buffer := flh })
        nicb start (L ++ F) := by
  intro L
  induction L with
  | nil => intro start _ hl; cases hl
  | cons i L ih =>
    intro start hsp hl hdrop hF
    obtain ⟨h1, h2, h3⟩ := hsp
    subst h1
    cases L with
    | nil =>
      have hit : i = t := by
        simp only [List.getLast?_singleton, Option.some.injEq] at hl
        exact hl
      subst hit
      refine ⟨rfl, by simpa using h2, ?_⟩
      rw [show nicb (evAt (pool.set i
          { evAt pool i with next_in_command_buffer := flh }) i) = flh from by
        rw [evAt_set_self h2]; rfl]
      simpa using hF
    | cons j L' =>
      have hit : i ≠ t := by
        intro hc
        subst hc
        exact hdrop (by simp [List.dropLast_cons₂])
      refine ⟨rfl, by simpa using h2, ?_⟩
      rw [show nicb (evAt (pool.set t
          { evAt pool t with next_in_command_buffer := flh }) i) =
          nicb (evAt pool i) from by rw [evAt_set_ne (Ne.symm hit)]]
      refine ih h3 ?_ ?_ hF
      · simpa using hl
      · intro hc
        exact hdrop (by simp [List.dropLast_cons₂, hc])

theorem QueueSpelled_extend {pool : List TracingEvent} {t₀ h : Nat}
    {L : List Nat} :
    ∀ {Qs : List (List Nat)} {start : Option Nat},
      QueueSpelled pool start Qs →
      (queueHeads Qs).getLast? = some t₀ →
      t₀ ∉ (queueHeads Qs).dropLast →
      Spells pool nicb (some h) (h :: L) →
      h ≠ t₀ →
      nsub (evAt pool h) = none →
      QueueSpelled
        (pool.set t₀ { evAt pool t₀ with next_submission := some h })
        start (Qs ++ [h :: L]) := by
  intro Qs
  induction Qs with
  | nil =>
    intro start _ hl
    simp [queueHeads] at hl
  | cons Q Qs ih =>
    intro start hq hl hdrop hchain hne hnsub
    match Q, hq with
    | q :: Lq, ⟨h1, h2, h3⟩ =>
      subst h1
      have hlen₁ : (pool.set t₀
          { evAt pool t₀ with next_submission := some h }).length =
          pool.length := List.length_set ..
      cases Qs with
      | nil =>
        have hqt : q = t₀ := by simpa [queueHeads] using hl
        subst hqt
        have hqb : q < pool.length := h2.2.1
        refine ⟨rfl, Spells_congr hlen₁ (nicb_evAt_set_preserve rfl) h2, ?_⟩
        rw [show nsub (evAt (pool.set q
            { evAt pool q with next_submission := some h }) q) = some h from by
          rw [evAt_set_self hqb]; rfl]
        refine ⟨rfl, Spells_congr hlen₁ (nicb_evAt_set_preserve rfl) hchain, ?_⟩
        rw [show nsub (evAt (pool.set q
            { evAt pool q with next_submission := some h }) h) =
            nsub (evAt pool h) from by
          rw [evAt_set_ne (fun hc => hne hc.symm)]]
        rw [hnsub]
        rfl
      | cons Q' Qs' =>
        have hqt : q ≠ t₀ := by
          intro hc
          subst hc
          apply hdrop
          simp [queueHeads, List.dropLast_cons₂]
        refine ⟨rfl, Spells_congr hlen₁ (nicb_evAt_set_preserve rfl) h2, ?_⟩
        rw [show nsub (evAt (pool.set t₀
            { evAt pool t₀ with next_submission := some h }) q) =
            nsub (evAt pool q) from by rw [evAt_set_ne (fun hc => hqt hc.symm)]]
        refine ih h3 ?_ ?_ hchain hne hnsub
        · simpa [queueHeads, List.getLast?_cons_cons] using hl
        · intro hc
          apply hdrop
          simp only [queueHeads, List.map_cons, List.dropLast_cons₂,
            List.mem_cons]
          right
          simpa [queueHeads] using hc

theorem notify_submitted_noop_on_empty_chain (ctx : TracingContext)
    (el : EventList) (hel : el.head = none) :
    iree_hal_cuda_tracing_notify_submitted ctx el = some ctx := by
  simp [iree_hal_cuda_tracing_notify_submitted, hel]

theorem notify_submitted_spec_empty_queue {fh stail : Option Nat}
    {pool : List TracingEvent} {h : Nat} {tl : Option Nat} {L : List Nat}
    (hchain : Spells pool nicb (some h) (h :: L))
    (hnsub : nsub (evAt pool h) = none) :
    iree_hal_cuda_tracing_notify_submitted ⟨fh, ⟨none, stail⟩, pool⟩
        ⟨some h, tl⟩ = some ⟨fh, ⟨some h, some h⟩, pool⟩ ∧
      QueueSpelled pool (some h) [h :: L] := by
  constructor
  · rfl
  · refine ⟨rfl, hchain, ?_⟩
    rw [hnsub]
    rfl

theorem notify_submitted_spec_nonempty_queue {fh : Option Nat}
    {pool : List TracingEvent} {s₀ t₀ h : Nat} {tl : Option Nat}
    {Qs : List (List Nat)} {L : List Nat}
    (hq : QueueSpelled pool (some s₀) Qs)
    (hl : (queueHeads Qs).getLast? = some t₀)
    (hdrop : t₀ ∉ (queueHeads Qs).dropLast)
    (hchain : Spells pool nicb (some h) (h :: L))
    (hne : h ≠ t₀)
    (hnsub : nsub (evAt pool h) = none)
    (hbound : t₀ < pool.length) :
    iree_hal_cuda_tracing_notify_submitted ⟨fh, ⟨some s₀, some t₀⟩, pool⟩
        ⟨some h, tl⟩ =
      some ⟨fh, ⟨some s₀, some h⟩,
        pool.set t₀ { evAt pool t₀ with next_submission := some h }⟩ ∧
      QueueSpelled
        (pool.set t₀ { evAt pool t₀ with next_submission := some h })
        (some s₀) (Qs ++ [h :: L]) := by
  constructor
  · simp [iree_hal_cuda_tracing_notify_submitted, hbound]
  · exact QueueSpelled_extend hq hl hdrop hchain hne hnsub

theorem tracing_free_noop_on_empty_chain (ctx : TracingContext)
    (el : EventList) (hel : el.head = none) :
    iree_hal_cuda_tracing_free ctx el = some (ctx, el, []) := by
  simp [iree_hal_cuda_tracing_free, hel]

/-- The early-return path of `iree_hal_cuda_tracing_free` (tracing.c
lines 339-343): when the context free list is empty, the chain head is
installed as the free list and the function returns before the head-field
resets and the handle-clearing of the regular path; the pool and the
caller's handle come back unchanged. -/
theorem tracing_free_spec_empty_freelist {shead stail : Option Nat}
    {pool : List TracingEvent} {h : Nat} {tl : Option Nat} {L : List Nat}
    (hchain : Spells pool nicb (some h) (h :: L))
    (hws : (evAt pool h).was_submitted = false)
    (hlen : (h :: L).length ≤ pool.length) :
    iree_hal_cuda_tracing_free ⟨none, ⟨shead, stail⟩, pool⟩ ⟨some h, tl⟩ =
      some (⟨some h, ⟨shead, stail⟩, pool⟩, ⟨some h, tl⟩,
        (h :: L).map fun i => ((i, 0) : Nat × Int)) := by
  have hb : h < pool.length := hchain.2.1
  have hz := tracing_free_zero_notifications_spells hchain hlen
  simp [iree_hal_cuda_tracing_free, hb, hws, hz]

/-- The regular reclamation path of `iree_hal_cuda_tracing_free`
(tracing.c lines 344-351) on a never-submitted chain `h :: L` with tail
`t`, against a non-empty free list spelling `F`: one zero notification per
node, head resets, O(1) splice of the whole chain onto the free-list
front, handle cleared; the new free list spells `(h :: L) ++ F`. -/
theorem tracing_free_spec_splice {shead stail : Option Nat}
    {pool : List TracingEvent} {h t f₀ : Nat} {L F : List Nat}
    (hchain : Spells pool nicb (some h) (h :: L))
    (hws : (evAt pool h).was_submitted = false)
    (hlen : (h :: L).length ≤ pool.length)
    (ht : (h :: L).getLast? = some t)
    (hnd : (h :: L).Nodup)
    (hF : Spells pool nicb (some f₀) F)
    (hdisj : t ∉ F) :
    iree_hal_cuda_tracing_free ⟨some f₀, ⟨shead, stail⟩, pool⟩
        ⟨some h, some t⟩ =
      some (⟨some h, ⟨shead, stail⟩,
          (pool.set h { evAt pool h with
              next_submission := none, was_submitted := false }).set t
            { evAt (pool.set h { evAt pool h with
                next_submission := none, was_submitted := false }) t with
              next_in_command_buffer := some f₀ }⟩,
        ⟨none, none⟩, (h :: L).map fun i => ((i, 0) : Nat × Int)) ∧
      Spells
        ((pool.set h { evAt pool h with
            next_submission := none, was_submitted := false }).set t
          { evAt (pool.set h { evAt pool h with
              next_submission := none, was_submitted := false }) t with
            next_in_command_buffer := some f₀ })
        nicb (some h) ((h :: L) ++ F) := by
  have hb : h < pool.length := hchain.2.1
  have htb : t < pool.length :=
    Spells_mem_lt hchain t (List.mem_of_mem_getLast? ht)
  have hz := tracing_free_zero_notifications_spells hchain hlen
  have hlen₁ : (pool.set h { evAt pool h with
      next_submission := none, was_submitted := false }).length =
      pool.length := List.length_set ..
  have hchain₁ : Spells (pool.set h { evAt pool h with
      next_submission := none, was_submitted := false }) nicb (some h)
      (h :: L) :=
    Spells_congr hlen₁ (nicb_evAt_set_preserve rfl) hchain
  have hF₁ : Spells (pool.set h { evAt pool h with
      next_submission := none, was_submitted := false }) nicb (some f₀) F :=
    Spells_congr hlen₁ (nicb_evAt_set_preserve rfl) hF
  constructor
  · simp [iree_hal_cuda_tracing_free, hb, htb, hws, hz, hlen₁]
  · exact Spells_splice hchain₁ ht (getLast?_not_mem_dropLast hnd ht)
      (Spells_set_of_not_mem hF₁ hdisj)

theorem set_evAt_self (pool : List TracingEvent) (i : Nat) :
    pool.set i (evAt pool i) = pool := by
  by_cases hi : i < pool.length
  · apply List.ext_getElem?
    intro j
    by_cases hij : i = j
    · subst hij
      rw [List.getElem?_set_self hi]
      simp [evAt, List.getD, List.getElem?_eq_getElem hi]
    · rw [List.getElem?_set_ne hij]
  · exact List.set_eq_of_length_le (Nat.le_of_not_lt hi)

theorem insert_query_null_deref (sub : EventList)
    (pool : List TracingEvent) (el : EventList) :
    iree_hal_cuda_stream_tracing_context_insert_query
      ⟨none, sub, pool⟩ el = .error .nullDeref := rfl

theorem graph_insert_query_null_deref (sub : EventList)
    (pool : List TracingEvent) (el : EventList) (record_ok : Bool) :
    iree_hal_cuda_graph_tracing_context_insert_query
      ⟨none, sub, pool⟩ el record_ok = .error .nullDeref := rfl

theorem insert_query_assert_on_last {sub : EventList}
    {pool : List TracingEvent} {e : Nat} (el : EventList)
    (hb : e < pool.length)
    (hn : (evAt pool e).next_in_command_buffer = none) :
    iree_hal_cuda_stream_tracing_context_insert_query
      ⟨some e, sub, pool⟩ el = .error .assertFailure := by
  simp [iree_hal_cuda_stream_tracing_context_insert_query, hb, hn]

theorem graph_insert_query_assert_on_last {sub : EventList}
    {pool : List TracingEvent} {e : Nat} (el : EventList) (record_ok : Bool)
    (hb : e < pool.length)
    (hn : (evAt pool e).next_in_command_buffer = none) :
    iree_hal_cuda_graph_tracing_context_insert_query
      ⟨some e, sub, pool⟩ el record_ok = .error .assertFailure := by
  simp [iree_hal_cuda_graph_tracing_context_insert_query, hb, hn]

theorem insert_query_ok_empty_chain {sub : EventList}
    {pool : List TracingEvent} {e r : Nat} {tl : Option Nat}
    (hb : e < pool.length)
    (hn : (evAt pool e).next_in_command_buffer = some r) :
    iree_hal_cuda_stream_tracing_context_insert_query
      ⟨some e, sub, pool⟩ ⟨none, tl⟩ =
      .ok (⟨some r, sub,
        pool.set e { evAt pool e with next_in_command_buffer := none }⟩,
        ⟨some e, some e⟩, e) := by
  simp [iree_hal_cuda_stream_tracing_context_insert_query,
    iree_hal_cuda_tracing_context_event_list_append_event, hb, hn]

theorem insert_query_ok_nonempty_chain {sub : EventList}
    {pool : List TracingEvent} {e r hh t : Nat}
    (hb : e < pool.length)
    (hn : (evAt pool e).next_in_command_buffer = some r)
    (htb : t < pool.length) :
    iree_hal_cuda_stream_tracing_context_insert_query
      ⟨some e, sub, pool⟩ ⟨some hh, some t⟩ =
      .ok (⟨some r, sub,
        (pool.set e { evAt pool e with next_in_command_buffer := none }).set t
          { evAt (pool.set e
              { evAt pool e with next_in_command_buffer := none }) t with
            next_in_command_buffer := some e }⟩,
        ⟨some hh, some e⟩, e) := by
  have htb' : t < (pool.set e
      { evAt pool e with next_in_command_buffer := none }).length := by
    simpa using htb
  simp [iree_hal_cuda_stream_tracing_context_insert_query,
    iree_hal_cuda_tracing_context_event_list_append_event, hb, hn, htb, htb']

theorem allocate_pool_length (n : Nat) :
    (iree_hal_cuda_tracing_context_allocate n).event_pool.length = n := by
  simp [iree_hal_cuda_tracing_context_allocate]

theorem evAt_allocate {n i : Nat} (hi : i < n) :
    evAt (iree_hal_cuda_tracing_context_allocate n).event_pool i =
      { next_in_command_buffer := if i + 1 = n then none else some (i + 1)
        next_submission := none
        was_submitted := false } := by
  simp [iree_hal_cuda_tracing_context_allocate, evAt, List.getD,
    List.getElem?_map, List.getElem?_range hi]

theorem allocate_spells_aux {n : Nat} :
    ∀ (k : Nat) (j : Nat), j + k = n → 1 ≤ k →
      Spells (iree_hal_cuda_tracing_context_allocate n).event_pool nicb
        (some j) (List.range' j k) := by
  intro k
  induction k with
  | zero => intro j _ hk; cases hk
  | succ k ih =>
    intro j hjk _
    have hj : j < n := by omega
    refine ⟨rfl, by simpa [allocate_pool_length] using hj, ?_⟩
    rw [show nicb (evAt
        (iree_hal_cuda_tracing_context_allocate n).event_pool j) =
        (if j + 1 = n then none else some (j + 1)) from by
      rw [evAt_allocate hj]; rfl]
    by_cases hk0 : k = 0
    · subst hk0
      have : j + 1 = n := by omega
      simp [this, List.range', Spells]
    · have hne : ¬(j + 1 = n) := by omega
      rw [if_neg hne]
      exact ih (j + 1) (by omega) (by omega)

theorem insertN_succ_back :
    ∀ (k : Nat) (ctx : TracingContext) (el : EventList),
      insertN (k + 1) ctx el =
        (insertN k ctx el).bind fun r =>
          (iree_hal_cuda_stream_tracing_context_insert_query r.1 r.2.1).map
            fun s => (s.1, s.2.1, r.2.2 ++ [s.2.2]) := by
  intro k
  induction k with
  | zero =>
    intro ctx el
    cases hI : iree_hal_cuda_stream_tracing_context_insert_query ctx el with
    | error err => simp [insertN, hI, Except.bind, Except.map]
    | ok r =>
      obtain ⟨c₁, l₁, id₁⟩ := r
      simp [insertN, hI, Except.bind, Except.map]
  | succ k ih =>
    intro ctx el
    cases hI : iree_hal_cuda_stream_tracing_context_insert_query ctx el with
    | error err =>
      simp only [insertN, hI, Except.bind]
    | ok r =>
      obtain ⟨c₁, l₁, id₁⟩ := r
      rw [show insertN (k + 1 + 1) ctx el =
          match iree_hal_cuda_stream_tracing_context_insert_query ctx el with
          | Except.error err => Except.error err
          | Except.ok (ctx₁, el₁, id) =>
            match insertN (k + 1) ctx₁ el₁ with
            | Except.error err => Except.error err
            | Except.ok (ctx₂, el₂, ids) => Except.ok (ctx₂, el₂, id :: ids)
          from rfl]
      rw [hI]
      dsimp only
      rw [ih c₁ l₁]
      rw [show insertN (k + 1) ctx el =
          match iree_hal_cuda_stream_tracing_context_insert_query ctx el with
          | Except.error err => Except.error err
          | Except.ok (ctx₁, el₁, id) =>
            match insertN k ctx₁ el₁ with
            | Except.error err => Except.error err
            | Except.ok (ctx₂, el₂, ids) => Except.ok (ctx₂, el₂, id :: ids)
          from rfl]
      rw [hI]
      dsimp only
      cases hJ : insertN k c₁ l₁ with
      | error err => simp [Except.bind]
      | ok r₂ =>
        obtain ⟨c₂, l₂, ids₂⟩ := r₂
        cases hK : iree_hal_cuda_stream_tracing_context_insert_query c₂ l₂ with
        | error err => simp [Except.bind, Except.map, hK]
        | ok r₃ =>
          obtain ⟨c₃, l₃, id₃⟩ := r₃
          simp [Except.bind, Except.map, hK]

theorem insertN_fresh {n : Nat} :
    ∀ k : Nat, k + 1 ≤ n →
      ∃ ctx' el',
        insertN k (iree_hal_cuda_tracing_context_allocate n) ⟨none, none⟩ =
          .ok (ctx', el', List.range k) ∧
        ctx'.event_freelist_head = some k ∧
        ctx'.event_pool.length = n ∧
        (∀ i, k ≤ i → i < n →
          evAt ctx'.event_pool i =
            { next_in_command_buffer := if i + 1 = n then none else some (i + 1)
              next_submission := none
              was_submitted := false }) ∧
        el' = if k = 0 then (⟨none, none⟩ : EventList)
              else ⟨some 0, some (k - 1)⟩ := by
  intro k
  induction k with
  | zero =>
    intro hk
    refine ⟨iree_hal_cuda_tracing_context_allocate n, ⟨none, none⟩,
      rfl, rfl, allocate_pool_length n, ?_, rfl⟩
    intro i _ hi
    exact evAt_allocate hi
  | succ k ih =>
    intro hk
    obtain ⟨c, l, hrun, hfl, hlen, hpool, hel⟩ := ih (by omega)
    obtain ⟨cf, cs, cp⟩ := c
    simp only at hfl hlen hpool
    subst hfl
    have hkn : k < n := by omega
    have hk1n : ¬(k + 1 = n) := by omega
    have hbound : k < cp.length := by omega
    have hnicb : (evAt cp k).next_in_command_buffer = some (k + 1) := by
      rw [hpool k le_rfl hkn]
      simp [hk1n]
    rw [insertN_succ_back, hrun]
    simp only [Except.bind]
    by_cases hk0 : k = 0
    · subst hk0
      have hel' : l = ⟨none, none⟩ := by simpa using hel
      subst hel'
      rw [insert_query_ok_empty_chain hbound hnicb]
      simp only [Except.map]
      rw [List.range_succ]
      refine ⟨_, _, rfl, rfl, by simpa using hlen, ?_, by simp⟩
      intro i hi hin
      rw [evAt_set_ne (by omega)]
      exact hpool i (by omega) hin
    · have hel' : l = ⟨some 0, some (k - 1)⟩ := by
        simp [hk0] at hel; exact hel
      subst hel'
      have htb : k - 1 < cp.length := by omega
      rw [insert_query_ok_nonempty_chain hbound hnicb htb]
      simp only [Except.map]
      rw [List.range_succ]
      refine ⟨_, _, rfl, rfl, by simpa using hlen, ?_, by simp⟩
      intro i hi hin
      rw [evAt_set_ne (by omega), evAt_set_ne (by omega)]
      exact hpool i (by omega) hin

theorem insertN_full_asserts (n : Nat) (hn : 1 ≤ n) :
    insertN n (iree_hal_cuda_tracing_context_allocate n) ⟨none, none⟩ =
      .error .assertFailure := by
  obtain ⟨m, rfl⟩ : ∃ m, n = m + 1 := ⟨n - 1, by omega⟩
  obtain ⟨c, l, hrun, hfl, hlen, hpool, hel⟩ :=
    insertN_fresh (n := m + 1) m (by omega)
  obtain ⟨cf, cs, cp⟩ := c
  simp only at hfl hlen hpool
  subst hfl
  have hnicb : (evAt cp m).next_in_command_buffer = none := by
    rw [hpool m le_rfl (by omega)]
    simp
  rw [insertN_succ_back, hrun]
  simp only [Except.bind]
  rw [insert_query_assert_on_last l (by omega) hnicb]
  rfl

theorem mark_heads_ws_stable :
    ∀ (hs : List Nat) (pool : List TracingEvent) (i : Nat),
      (evAt pool i).was_submitted = true →
      (evAt (mark_heads pool hs) i).was_submitted = true := by
  intro hs
  induction hs with
  | nil => intro pool i h; exact h
  | cons j hs ih =>
    intro pool i h
    apply ih
    rw [evAt_set]
    by_cases hc : j = i ∧ j < pool.length
    · rw [if_pos hc]
    · rw [if_neg hc]; exact h

theorem mark_heads_ws (hs : List Nat) :
    ∀ (pool : List TracingEvent) (h : Nat), h ∈ hs → h < pool.length →
      (evAt (mark_heads pool hs) h).was_submitted = true := by
  induction hs with
  | nil => intro pool h hmem; cases hmem
  | cons j hs ih =>
    intro pool h hmem hb
    rcases List.mem_cons.mp hmem with rfl | hmem
    · show (evAt (mark_heads
        (pool.set h { evAt pool h with was_submitted := true }) hs)
          h).was_submitted = true
      apply mark_heads_ws_stable
      rw [evAt_set_self hb]
    · exact ih _ h hmem (by simpa using hb)

theorem queueHeads_lt {pool : List TracingEvent} :
    ∀ {Qs : List (List Nat)} {start : Option Nat},
      QueueSpelled pool start Qs →
      ∀ h ∈ queueHeads Qs, h < pool.length := by
  intro Qs
  induction Qs with
  | nil => intro start _ h hmem; cases hmem
  | cons Q Qs ih =>
    intro start hq h hmem
    match Q, hq with
    | q :: Lq, ⟨h1, h2, h3⟩ =>
      rcases List.mem_cons.mp hmem with rfl | hmem
      · exact h2.2.1
      · exact ih h3 h hmem

theorem chainNotifs_all_ok {dev : Device} {L : List Nat}
    (hok : ∀ i ∈ L, collectOk dev i = true) :
    chainNotifs dev L = L.map fun i => (i, dev.elapsed i) := by
  unfold chainNotifs
  rw [List.takeWhile_eq_self_iff.mpr hok]

theorem collect_ids_all_ok {dev : Device} {Qs : List (List Nat)}
    (hok : ∀ i ∈ Qs.flatten, collectOk dev i = true) :
    ((Qs.map (chainNotifs dev)).flatten).map Prod.fst = Qs.flatten := by
  induction Qs with
  | nil => rfl
  | cons Q Qs ih =>
    have hQ : ∀ i ∈ Q, collectOk dev i = true := fun i hi =>
      hok i (by simp [hi])
    have hQs : ∀ i ∈ Qs.flatten, collectOk dev i = true := fun i hi =>
      hok i (by simp [hi])
    simp only [List.map_cons, List.flatten_cons, List.map_append]
    rw [ih hQs, chainNotifs_all_ok hQ]
    simp only [List.map_map]
    rw [show (Prod.fst ∘ fun i => (i, dev.elapsed i)) = id from rfl,
      List.map_id]

theorem insert_query_ok_of_spells {sub : EventList}
    {pool : List TracingEvent} {h r : Nat} {rest : List Nat}
    (hsp : Spells pool nicb (some h) (h :: r :: rest)) :
    ∃ ctx' el',
      iree_hal_cuda_stream_tracing_context_insert_query
        ⟨some h, sub, pool⟩ ⟨none, none⟩ = .ok (ctx', el', h) := by
  have hb : h < pool.length := hsp.2.1
  have hn : (evAt pool h).next_in_command_buffer = some r := hsp.2.2.1
  exact ⟨_, _, insert_query_ok_empty_chain hb hn⟩

/-- C7: calling Collect when the Submission Queue is empty is a no-op: the
sink receives no notifications and the whole context — free list, queue,
every pool slot — is returned unchanged. -/
theorem claim_C7 (ctx : TracingContext) (dev : Device)
    (h : ctx.submitted_event_list.head = none) :
    iree_hal_cuda_tracing_context_collect ctx dev = (ctx, []) := by
  unfold iree_hal_cuda_tracing_context_collect
  rw [h]

theorem claim_C7_witness :
    iree_hal_cuda_tracing_context_collect
      (iree_hal_cuda_tracing_context_allocate 3)
      ⟨fun _ => false, fun _ => false, fun _ => 0⟩ =
      (iree_hal_cuda_tracing_context_allocate 3, []) :=
  claim_C7 _ _ rfl

/-- C8: after a successful Allocate with capacity n ≥ 1, the free-list
head is slot 0 and the n slots are linked into one free list in ascending
index order (slot i links to slot i+1, the last slot's chain link is
null), every slot has null `next_submission` and false `was_submitted`,
and the submission queue is empty. -/
theorem claim_C8 (n : Nat) (hn : 1 ≤ n) :
    (iree_hal_cuda_tracing_context_allocate n).event_freelist_head =
      some 0 ∧
    Spells (iree_hal_cuda_tracing_context_allocate n).event_pool nicb
      (some 0) (List.range n) ∧
    (∀ i, i < n →
      evAt (iree_hal_cuda_tracing_context_allocate n).event_pool i =
        { next_in_command_buffer := if i + 1 = n then none else some (i + 1)
          next_submission := none
          was_submitted := false }) ∧
    (iree_hal_cuda_tracing_context_allocate n).submitted_event_list =
      ⟨none, none⟩ := by
  refine ⟨rfl, ?_, fun i hi => evAt_allocate hi, rfl⟩
  rw [List.range_eq_range']
  exact allocate_spells_aux n 0 (by omega) hn

theorem claim_C8_witness :
    (iree_hal_cuda_tracing_context_allocate 3).event_freelist_head =
      some 0 ∧
    Spells (iree_hal_cuda_tracing_context_allocate 3).event_pool nicb
      (some 0) (List.range 3) ∧
    (∀ i, i < 3 →
      evAt (iree_hal_cuda_tracing_context_allocate 3).event_pool i =
        { next_in_command_buffer := if i + 1 = 3 then none else some (i + 1)
          next_submission := none
          was_submitted := false }) ∧
    (iree_hal_cuda_tracing_context_allocate 3).submitted_event_list =
      ⟨none, none⟩ :=
  claim_C8 3 (by decide)

/-- C9 (implicit): after popping the free-list head, both insert-query
variants assert that the popped primitive's `next_in_command_buffer` is
non-null; since the free list's final element always carries a null link,
popping the last remaining free primitive (free list = exactly that one
element) trips the assertion even though the pool still had that primitive,
while a pop from an already-empty free list dereferences the null head
pointer.  Consequently a fresh pool of capacity n dies on the n-th
InsertQuery: at most n - 1 primitives can be outstanding. -/
theorem claim_C9 :
    (∀ (sub : EventList) (pool : List TracingEvent) (e : Nat)
       (el : EventList),
       Spells pool nicb (some e) [e] →
       iree_hal_cuda_stream_tracing_context_insert_query
         ⟨some e, sub, pool⟩ el = .error .assertFailure) ∧
    (∀ (sub : EventList) (pool : List TracingEvent) (e : Nat)
       (el : EventList) (record_ok : Bool),
       Spells pool nicb (some e) [e] →
       iree_hal_cuda_graph_tracing_context_insert_query
         ⟨some e, sub, pool⟩ el record_ok = .error .assertFailure) ∧
    (∀ (sub : EventList) (pool : List TracingEvent) (el : EventList),
       iree_hal_cuda_stream_tracing_context_insert_query
         ⟨none, sub, pool⟩ el = .error .nullDeref) ∧
    (∀ (sub : EventList) (pool : List TracingEvent) (el : EventList)
       (record_ok : Bool),
       iree_hal_cuda_graph_tracing_context_insert_query
         ⟨none, sub, pool⟩ el record_ok = .error .nullDeref) ∧
    (∀ n : Nat, 1 ≤ n →
       insertN n (iree_hal_cuda_tracing_context_allocate n) ⟨none, none⟩ =
         .error .assertFailure) := by
  refine ⟨?_, ?_, ?_, ?_, insertN_full_asserts⟩
  · intro sub pool e el hsp
    exact insert_query_assert_on_last el hsp.2.1 hsp.2.2
  · intro sub pool e el record_ok hsp
    exact graph_insert_query_assert_on_last el record_ok hsp.2.1 hsp.2.2
  · intro sub pool el
    exact insert_query_null_deref sub pool el
  · intro sub pool el record_ok
    exact graph_insert_query_null_deref sub pool el record_ok

theorem claim_C9_witness :
    iree_hal_cuda_stream_tracing_context_insert_query
      ⟨some 1, ⟨none, none⟩,
        [⟨some 1, none, false⟩, ⟨none, none, false⟩]⟩
      ⟨none, none⟩ = .error .assertFailure ∧
    insertN 2 (iree_hal_cuda_tracing_context_allocate 2) ⟨none, none⟩ =
      .error .assertFailure :=
  ⟨claim_C9.1 ⟨none, none⟩ _ 1 ⟨none, none⟩ (by decide),
   claim_C9.2.2.2.2 2 (by decide)⟩

/-- C2 counterexample: with pool capacity 4, the first three InsertQuery
calls succeed but the fourth — not the fifth — already fails fatally: the
popped primitive is the free list's last element, so the assertion on its
null chain link fires.  The claim that the first 4 calls succeed is
therefore false. -/
theorem claim_C2_counterexample :
    (insertN 3 (iree_hal_cuda_tracing_context_allocate 4)
      ⟨none, none⟩).isOk = true ∧
    insertN 4 (iree_hal_cuda_tracing_context_allocate 4) ⟨none, none⟩ =
      .error .assertFailure := by
  decide

/-- C2 amended: with pool capacity n ≥ 1 the first n - 1 InsertQuery calls
succeed (returning query ids 0 .. n-2 in order), and the n-th call — the
one that pops the final free primitive, leaving the free-list head null —
fails fatally through the pool-exhaustion assertion rather than
proceeding with an invalid primitive. -/
theorem claim_C2_amended (n : Nat) (hn : 1 ≤ n) :
    (∃ ctx' el',
       insertN (n - 1) (iree_hal_cuda_tracing_context_allocate n)
         ⟨none, none⟩ = .ok (ctx', el', List.range (n - 1))) ∧
    insertN n (iree_hal_cuda_tracing_context_allocate n) ⟨none, none⟩ =
      .error .assertFailure := by
  refine ⟨?_, insertN_full_asserts n hn⟩
  obtain ⟨c, l, hrun, _⟩ := insertN_fresh (n := n) (n - 1) (by omega)
  exact ⟨c, l, hrun⟩

theorem claim_C2_witness :
    (∃ ctx' el',
       insertN 3 (iree_hal_cuda_tracing_context_allocate 4)
         ⟨none, none⟩ = .ok (ctx', el', List.range 3)) ∧
    insertN 4 (iree_hal_cuda_tracing_context_allocate 4) ⟨none, none⟩ =
      .error .assertFailure :=
  claim_C2_amended 4 (by decide)

theorem evAt_splice_head {pool : List TracingEvent} {h t : Nat}
    {flh : Option Nat} (hb : h < pool.length) :
    (evAt ((pool.set h { evAt pool h with
        next_submission := none, was_submitted := false }).set t
      { evAt (pool.set h { evAt pool h with
          next_submission := none, was_submitted := false }) t with
        next_in_command_buffer := flh }) h).next_submission = none ∧
    (evAt ((pool.set h { evAt pool h with
        next_submission := none, was_submitted := false }).set t
      { evAt (pool.set h { evAt pool h with
          next_submission := none, was_submitted := false }) t with
        next_in_command_buffer := flh }) h).was_submitted = false := by
  by_cases hth : t = h
  · subst hth
    rw [evAt_set_self (by simpa using hb)]
    dsimp only
    rw [evAt_set_self hb]
    exact ⟨rfl, rfl⟩
  · rw [evAt_set_ne hth, evAt_set_self hb]
    exact ⟨rfl, rfl⟩

/-- C10 (implicit): when Free runs with the context free list empty, it
installs the chain head as the free list and returns early: the pool is
untouched (so the head's `was_submitted`/`next_submission` keep whatever
values they had) and the caller's handle keeps its non-null head and tail;
the regular path taken when the free list is non-empty resets both head
fields and nulls the caller's head and tail. -/
theorem claim_C10 :
    (∀ (shead stail : Option Nat) (pool : List TracingEvent) (h : Nat)
       (tl : Option Nat),
       h < pool.length →
       ∃ ns,
         iree_hal_cuda_tracing_free ⟨none, ⟨shead, stail⟩, pool⟩
             ⟨some h, tl⟩ =
           some (⟨some h, ⟨shead, stail⟩, pool⟩, ⟨some h, tl⟩, ns)) ∧
    (∀ (shead stail : Option Nat) (pool : List TracingEvent)
       (f₀ h t : Nat),
       h < pool.length → t < pool.length →
       ∃ ns pool',
         iree_hal_cuda_tracing_free ⟨some f₀, ⟨shead, stail⟩, pool⟩
             ⟨some h, some t⟩ =
           some (⟨some h, ⟨shead, stail⟩, pool'⟩, ⟨none, none⟩, ns) ∧
         (evAt pool' h).next_submission = none ∧
         (evAt pool' h).was_submitted = false) := by
  constructor
  · intro shead stail pool h tl hb
    refine ⟨if (evAt pool h).was_submitted = false then
        tracing_free_zero_notifications pool pool.length (some h)
      else [], ?_⟩
    simp [iree_hal_cuda_tracing_free, hb]
  · intro shead stail pool f₀ h t hb htb
    refine ⟨if (evAt pool h).was_submitted = false then
        tracing_free_zero_notifications pool pool.length (some h)
      else [],
      (pool.set h { evAt pool h with
          next_submission := none, was_submitted := false }).set t
        { evAt (pool.set h { evAt pool h with
            next_submission := none, was_submitted := false }) t with
          next_in_command_buffer := some f₀ },
      ?_, (@evAt_splice_head pool h t (some f₀) hb).1,
      (@evAt_splice_head pool h t (some f₀) hb).2⟩
    simp [iree_hal_cuda_tracing_free, hb, htb]

theorem claim_C10_witness :
    (∃ ns,
       iree_hal_cuda_tracing_free
           ⟨none, ⟨none, none⟩,
             [⟨none, some 1, false⟩, ⟨none, none, false⟩]⟩
           ⟨some 0, some 0⟩ =
         some (⟨some 0, ⟨none, none⟩,
             [⟨none, some 1, false⟩, ⟨none, none, false⟩]⟩,
           ⟨some 0, some 0⟩, ns)) ∧
    (∃ ns pool',
       iree_hal_cuda_tracing_free
           ⟨some 1, ⟨none, none⟩,
             [⟨none, some 1, true⟩, ⟨none, none, false⟩]⟩
           ⟨some 0, some 0⟩ =
         some (⟨some 0, ⟨none, none⟩, pool'⟩, ⟨none, none⟩, ns) ∧
       (evAt pool' 0).next_submission = none ∧
       (evAt pool' 0).was_submitted = false) :=
  ⟨claim_C10.1 none none _ 0 (some 0) (by decide),
   claim_C10.2 none none _ 1 0 0 (by decide) (by decide)⟩

/-- C1 counterexample: two single-node chains (heads 0 and 1) sit in the
submission queue and the device reports primitive 0's result as
unavailable (`cuEventSynchronize` fails) while primitive 1 resolves.  The
claim says the walk stops at primitive 0 and the whole remaining queue —
chain 0 included — is left for a later Collect, with chain 0 not marked
done.  Collect instead emits nothing for chain 0 but still marks its head
`was_submitted = true`, advances past it, processes the later queue entry
(notifying (1, 7)), and leaves the queue empty. -/
theorem claim_C1_counterexample :
    iree_hal_cuda_tracing_context_collect
      ⟨none, ⟨some 0, some 1⟩,
        [⟨none, some 1, false⟩, ⟨none, none, false⟩]⟩
      ⟨fun i => i == 1, fun _ => true, fun _ => 7⟩ =
      (⟨none, ⟨none, some 1⟩,
        [⟨none, some 1, true⟩, ⟨none, none, true⟩]⟩,
       [(1, 7)]) := by
  decide

/-- C1 amended: a Collect call never leaves work behind for a later call.
Whatever the device answers, every queue entry is walked: within one chain
the notifications stop at the first primitive whose synchronize or query
fails (that primitive and its successors in the chain are never reported),
but the chain's head is still marked `was_submitted = true` and the queue
head advances past it, so the call always ends with an empty submission
queue. -/
theorem claim_C1_amended {dev : Device} {Qs : List (List Nat)}
    {fh shead stail : Option Nat} {pool : List TracingEvent}
    (hq : QueueSpelled pool shead Qs)
    (hlen : ∀ L ∈ Qs, L.length ≤ pool.length)
    (hqlen : Qs.length ≤ pool.length) :
    iree_hal_cuda_tracing_context_collect ⟨fh, ⟨shead, stail⟩, pool⟩ dev =
      (⟨fh, ⟨none, stail⟩, mark_heads pool (queueHeads Qs)⟩,
       (Qs.map (chainNotifs dev)).flatten) ∧
    (∀ h ∈ queueHeads Qs,
      (evAt (mark_heads pool (queueHeads Qs)) h).was_submitted = true) := by
  refine ⟨iree_hal_cuda_tracing_context_collect_spec hq hlen hqlen, ?_⟩
  intro h hmem
  exact mark_heads_ws _ _ h hmem (queueHeads_lt hq h hmem)

theorem claim_C1_amended_witness :
    iree_hal_cuda_tracing_context_collect
      ⟨none, ⟨some 0, some 1⟩,
        [⟨none, some 1, false⟩, ⟨none, none, false⟩]⟩
      ⟨fun i => i == 1, fun _ => true, fun _ => 7⟩ =
      (⟨none, ⟨none, some 1⟩,
        mark_heads [⟨none, some 1, false⟩, ⟨none, none, false⟩]
          (queueHeads [[0], [1]])⟩,
       (([[0], [1]] : List (List Nat)).map
         (chainNotifs ⟨fun i => i == 1, fun _ => true, fun _ => 7⟩)).flatten) ∧
    (∀ h ∈ queueHeads [[0], [1]],
      (evAt (mark_heads [⟨none, some 1, false⟩, ⟨none, none, false⟩]
        (queueHeads [[0], [1]])) h).was_submitted = true) :=
  @claim_C1_amended ⟨fun i => i == 1, fun _ => true, fun _ => 7⟩
    [[0], [1]] none (some 0) (some 1)
    [⟨none, some 1, false⟩, ⟨none, none, false⟩]
    (by decide) (by decide) (by decide)

theorem tracing_free_notifs {fh₂ shead₂ stail₂ tl : Option Nat}
    {pool₂ : List TracingEvent} {h : Nat} {L : List Nat}
    {c' : TracingContext} {el' : EventList} {ns : List (Nat × Int)}
    (hsp : Spells pool₂ nicb (some h) (h :: L))
    (hlen : (h :: L).length ≤ pool₂.length)
    (hws : (evAt pool₂ h).was_submitted = false)
    (hfree : iree_hal_cuda_tracing_free ⟨fh₂, ⟨shead₂, stail₂⟩, pool₂⟩
        ⟨some h, tl⟩ = some (c', el', ns)) :
    ns = (h :: L).map fun i => ((i, 0) : Nat × Int) := by
  have hb : h < pool₂.length := hsp.2.1
  have hz := tracing_free_zero_notifications_spells hsp hlen
  unfold iree_hal_cuda_tracing_free at hfree
  simp only [hb, if_true, hws] at hfree
  rw [hz] at hfree
  cases fh₂ with
  | none =>
    simp only [Option.some.injEq] at hfree
    exact (congrArg (fun r => r.2.2) hfree).symm
  | some f =>
    cases tl with
    | none => simp at hfree
    | some t =>
      by_cases htb : t < pool₂.length
      · simp only [htb, if_true, Option.some.injEq] at hfree
        exact (congrArg (fun r => r.2.2) hfree).symm
      · simp [htb] at hfree

/-- C3 counterexample: a full insert / submit / collect-with-failing-query
/ free trace on a capacity-2 pool.  Query id 0 is handed out by
InsertQuery, but the sink never receives a notification for it: Collect
breaks on the failed `cuEventSynchronize`, still marks the chain
submitted and drops it from the queue, and the later Free sees
`was_submitted = true` and emits no synthetic notification either —
refuting the exactly-once guarantee. -/
theorem claim_C3_counterexample :
    iree_hal_cuda_stream_tracing_context_insert_query
      (iree_hal_cuda_tracing_context_allocate 2) ⟨none, none⟩ =
      .ok (⟨some 1, ⟨none, none⟩,
        [⟨none, none, false⟩, ⟨none, none, false⟩]⟩,
        ⟨some 0, some 0⟩, 0) ∧
    iree_hal_cuda_tracing_notify_submitted
      ⟨some 1, ⟨none, none⟩, [⟨none, none, false⟩, ⟨none, none, false⟩]⟩
      ⟨some 0, some 0⟩ =
      some ⟨some 1, ⟨some 0, some 0⟩,
        [⟨none, none, false⟩, ⟨none, none, false⟩]⟩ ∧
    iree_hal_cuda_tracing_context_collect
      ⟨some 1, ⟨some 0, some 0⟩,
        [⟨none, none, false⟩, ⟨none, none, false⟩]⟩
      ⟨fun _ => false, fun _ => true, fun _ => 7⟩ =
      (⟨some 1, ⟨none, some 0⟩,
        [⟨none, none, true⟩, ⟨none, none, false⟩]⟩, []) ∧
    iree_hal_cuda_tracing_free
      ⟨some 1, ⟨none, some 0⟩,
        [⟨none, none, true⟩, ⟨none, none, false⟩]⟩
      ⟨some 0, some 0⟩ =
      some (⟨some 0, ⟨none, some 0⟩,
        [⟨some 1, none, false⟩, ⟨none, none, false⟩]⟩,
        ⟨none, none⟩, []) := by
  decide

/-- C3 amended: exactly-once delivery holds only on the non-failing
paths.  When every queued event synchronizes and queries successfully,
Collect reports each queued query id exactly once; and Free on a
never-submitted chain reports each of the chain's query ids exactly once
(with a zero timestamp).  When a device query fails during Collect, the
unreported events of that chain are dropped and never reported (see the
counterexample). -/
theorem claim_C3_amended {dev : Device} {Qs : List (List Nat)}
    {fh shead stail : Option Nat} {pool : List TracingEvent}
    (hq : QueueSpelled pool shead Qs)
    (hlen : ∀ L ∈ Qs, L.length ≤ pool.length)
    (hqlen : Qs.length ≤ pool.length)
    (hnd : Qs.flatten.Nodup)
    (hok : ∀ i ∈ Qs.flatten, collectOk dev i = true) :
    (∀ i ∈ Qs.flatten,
      (((iree_hal_cuda_tracing_context_collect
          ⟨fh, ⟨shead, stail⟩, pool⟩ dev).2).map Prod.fst).count i = 1) ∧
    (∀ (fh₂ shead₂ stail₂ tl : Option Nat) (pool₂ : List TracingEvent)
       (h : Nat) (L : List Nat) (c' : TracingContext) (el' : EventList)
       (ns : List (Nat × Int)),
       Spells pool₂ nicb (some h) (h :: L) →
       (h :: L).Nodup →
       (h :: L).length ≤ pool₂.length →
       (evAt pool₂ h).was_submitted = false →
       iree_hal_cuda_tracing_free ⟨fh₂, ⟨shead₂, stail₂⟩, pool₂⟩
         ⟨some h, tl⟩ = some (c', el', ns) →
       ∀ i ∈ h :: L, (ns.map Prod.fst).count i = 1) := by
  constructor
  · intro i hi
    rw [iree_hal_cuda_tracing_context_collect_spec hq hlen hqlen]
    rw [show ((⟨fh, ⟨none, stail⟩,
        mark_heads pool (queueHeads Qs)⟩, (Qs.map (chainNotifs dev)).flatten) :
        TracingContext × List (Nat × Int)).2 =
        (Qs.map (chainNotifs dev)).flatten from rfl]
    rw [collect_ids_all_ok hok]
    exact List.count_eq_one_of_mem hnd hi
  · intro fh₂ shead₂ stail₂ tl pool₂ h L c' el' ns hsp hnd' hlen' hws hfree
    intro i hi
    rw [tracing_free_notifs hsp hlen' hws hfree]
    rw [List.map_map]
    rw [show (Prod.fst ∘ fun i => ((i, 0) : Nat × Int)) = id from rfl,
      List.map_id]
    exact List.count_eq_one_of_mem hnd' hi

theorem claim_C3_amended_witness :
    (∀ i ∈ ([[0], [1]] : List (List Nat)).flatten,
      (((iree_hal_cuda_tracing_context_collect
          ⟨none, ⟨some 0, some 1⟩,
            [⟨none, some 1, false⟩, ⟨none, none, false⟩]⟩
          ⟨fun _ => true, fun _ => true, fun _ => 5⟩).2).map
        Prod.fst).count i = 1) ∧
    (∀ (fh₂ shead₂ stail₂ tl : Option Nat) (pool₂ : List TracingEvent)
       (h : Nat) (L : List Nat) (c' : TracingContext) (el' : EventList)
       (ns : List (Nat × Int)),
       Spells pool₂ nicb (some h) (h :: L) →
       (h :: L).Nodup →
       (h :: L).length ≤ pool₂.length →
       (evAt pool₂ h).was_submitted = false →
       iree_hal_cuda_tracing_free ⟨fh₂, ⟨shead₂, stail₂⟩, pool₂⟩
         ⟨some h, tl⟩ = some (c', el', ns) →
       ∀ i ∈ h :: L, (ns.map Prod.fst).count i = 1) :=
  @claim_C3_amended ⟨fun _ => true, fun _ => true, fun _ => 5⟩
    [[0], [1]] none (some 0) (some 1)
    [⟨none, some 1, false⟩, ⟨none, none, false⟩]
    (by decide) (by decide) (by decide) (by decide) (by decide)

/-- C4 counterexample: Free of a never-submitted single-node chain whose
head carries a stale `next_submission = some 1`, called while the context
free list is empty.  The chain is spliced in (it becomes the free list)
and the zero notification is emitted, but the early-return path skips the
promised resets: the former head's `next_submission` stays `some 1`, so
the reset clause fails for the empty-free-list state the claim explicitly
includes. -/
theorem claim_C4_counterexample :
    iree_hal_cuda_tracing_free
      ⟨none, ⟨none, none⟩,
        [⟨none, some 1, false⟩, ⟨none, none, false⟩]⟩
      ⟨some 0, some 0⟩ =
      some (⟨some 0, ⟨none, none⟩,
        [⟨none, some 1, false⟩, ⟨none, none, false⟩]⟩,
        ⟨some 0, some 0⟩, [(0, 0)]) ∧
    (evAt [(⟨none, some 1, false⟩ : TracingEvent),
      ⟨none, none, false⟩] 0).next_submission = some 1 := by
  decide

/-- C4 amended: Free on a non-empty never-submitted chain emits exactly
one zero-timestamp notification per node and puts the whole chain at the
front of the free list, after which its nodes are obtainable again by
InsertQuery; but the head-field resets and the handle clearing happen only
on the non-empty-free-list path — when the free list is empty the chain
is installed as-is by the early return, with the pool and the caller's
handle untouched. -/
theorem claim_C4_amended :
    (∀ (shead stail : Option Nat) (pool : List TracingEvent) (h : Nat)
       (tl : Option Nat) (L : List Nat),
       Spells pool nicb (some h) (h :: L) →
       (evAt pool h).was_submitted = false →
       (h :: L).length ≤ pool.length →
       iree_hal_cuda_tracing_free ⟨none, ⟨shead, stail⟩, pool⟩
           ⟨some h, tl⟩ =
         some (⟨some h, ⟨shead, stail⟩, pool⟩, ⟨some h, tl⟩,
           (h :: L).map fun i => ((i, 0) : Nat × Int)) ∧
       Spells pool nicb (some h) (h :: L)) ∧
    (∀ (shead stail : Option Nat) (pool : List TracingEvent)
       (h t f₀ : Nat) (L F : List Nat),
       Spells pool nicb (some h) (h :: L) →
       (evAt pool h).was_submitted = false →
       (h :: L).length ≤ pool.length →
       (h :: L).getLast? = some t →
       (h :: L).Nodup →
       Spells pool nicb (some f₀) F →
       t ∉ F →
       iree_hal_cuda_tracing_free ⟨some f₀, ⟨shead, stail⟩, pool⟩
           ⟨some h, some t⟩ =
         some (⟨some h, ⟨shead, stail⟩,
             (pool.set h { evAt pool h with
                 next_submission := none, was_submitted := false }).set t
               { evAt (pool.set h { evAt pool h with
                   next_submission := none, was_submitted := false }) t with
                 next_in_command_buffer := some f₀ }⟩,
           ⟨none, none⟩, (h :: L).map fun i => ((i, 0) : Nat × Int)) ∧
       Spells
         ((pool.set h { evAt pool h with
             next_submission := none, was_submitted := false }).set t
           { evAt (pool.set h { evAt pool h with
               next_submission := none, was_submitted := false }) t with
             next_in_command_buffer := some f₀ })
         nicb (some h) ((h :: L) ++ F)) ∧
    (∀ (sub : EventList) (pool : List TracingEvent) (h r : Nat)
       (rest : List Nat),
       Spells pool nicb (some h) (h :: r :: rest) →
       ∃ ctx' el',
         iree_hal_cuda_stream_tracing_context_insert_query
           ⟨some h, sub, pool⟩ ⟨none, none⟩ = .ok (ctx', el', h)) := by
  refine ⟨?_, ?_, ?_⟩
  · intro shead stail pool h tl L hsp hws hlen
    exact ⟨tracing_free_spec_empty_freelist hsp hws hlen, hsp⟩
  · intro shead stail pool h t f₀ L F hsp hws hlen ht hnd hF hdisj
    exact tracing_free_spec_splice hsp hws hlen ht hnd hF hdisj
  · intro sub pool h r rest hsp
    exact insert_query_ok_of_spells hsp

theorem claim_C4_amended_witness :
    (iree_hal_cuda_tracing_free
        ⟨none, ⟨none, none⟩, [⟨none, none, false⟩, ⟨none, none, false⟩]⟩
        ⟨some 0, some 0⟩ =
      some (⟨some 0, ⟨none, none⟩,
          [⟨none, none, false⟩, ⟨none, none, false⟩]⟩,
        ⟨some 0, some 0⟩,
        ([0] : List Nat).map fun i => ((i, 0) : Nat × Int)) ∧
      Spells [⟨none, none, false⟩, ⟨none, none, false⟩] nicb
        (some 0) [0]) ∧
    (iree_hal_cuda_tracing_free
        ⟨some 1, ⟨none, none⟩,
          [⟨none, none, false⟩, ⟨none, none, false⟩]⟩
        ⟨some 0, some 0⟩ =
      some (⟨some 0, ⟨none, none⟩,
          (([⟨none, none, false⟩, ⟨none, none, false⟩] :
              List TracingEvent).set 0
            { evAt [⟨none, none, false⟩, ⟨none, none, false⟩] 0 with
              next_submission := none, was_submitted := false }).set 0
            { evAt (([⟨none, none, false⟩, ⟨none, none, false⟩] :
                List TracingEvent).set 0
              { evAt [⟨none, none, false⟩, ⟨none, none, false⟩] 0 with
                next_submission := none, was_submitted := false }) 0 with
              next_in_command_buffer := some 1 }⟩,
        ⟨none, none⟩,
        ([0] : List Nat).map fun i => ((i, 0) : Nat × Int)) ∧
      Spells
        ((([⟨none, none, false⟩, ⟨none, none, false⟩] :
            List TracingEvent).set 0
          { evAt [⟨none, none, false⟩, ⟨none, none, false⟩] 0 with
            next_submission := none, was_submitted := false }).set 0
          { evAt (([⟨none, none, false⟩, ⟨none, none, false⟩] :
              List TracingEvent).set 0
            { evAt [⟨none, none, false⟩, ⟨none, none, false⟩] 0 with
              next_submission := none, was_submitted := false }) 0 with
            next_in_command_buffer := some 1 })
        nicb (some 0) ([0] ++ [1])) ∧
    (∃ ctx' el',
      iree_hal_cuda_stream_tracing_context_insert_query
        ⟨some 0, ⟨none, none⟩,
          [⟨some 1, none, false⟩, ⟨none, none, false⟩]⟩
        ⟨none, none⟩ = .ok (ctx', el', 0)) :=
  ⟨claim_C4_amended.1 none none _ 0 (some 0) [] (by decide) (by decide)
      (by decide),
   claim_C4_amended.2.1 none none _ 0 0 1 [] [1] (by decide) (by decide)
      (by decide) (by decide) (by decide) (by decide) (by decide),
   claim_C4_amended.2.2 ⟨none, none⟩ _ 0 1 [] (by decide)⟩

/-- C6: NotifySubmitted is a no-op on an empty chain and otherwise
appends the chain's head at the tail of the submission queue (installing
it as head and tail when the queue is empty, extending the previous tail
head's `next_submission` otherwise); a successful Collect — every queued
event synchronizing and querying successfully — then reports the queued
chains in FIFO submission order, each chain's N query ids appearing in
append order, and the reported ids are distinct whenever the queued ids
are. -/
theorem claim_C6 :
    (∀ (ctx : TracingContext) (el : EventList), el.head = none →
       iree_hal_cuda_tracing_notify_submitted ctx el = some ctx) ∧
    (∀ (fh stail : Option Nat) (pool : List TracingEvent) (h : Nat)
       (tl : Option Nat) (L : List Nat),
       Spells pool nicb (some h) (h :: L) →
       nsub (evAt pool h) = none →
       iree_hal_cuda_tracing_notify_submitted ⟨fh, ⟨none, stail⟩, pool⟩
           ⟨some h, tl⟩ = some ⟨fh, ⟨some h, some h⟩, pool⟩ ∧
       QueueSpelled pool (some h) [h :: L]) ∧
    (∀ (fh : Option Nat) (pool : List TracingEvent) (s₀ t₀ h : Nat)
       (tl : Option Nat) (Qs : List (List Nat)) (L : List Nat),
       QueueSpelled pool (some s₀) Qs →
       (queueHeads Qs).getLast? = some t₀ →
       t₀ ∉ (queueHeads Qs).dropLast →
       Spells pool nicb (some h) (h :: L) →
       h ≠ t₀ →
       nsub (evAt pool h) = none →
       t₀ < pool.length →
       iree_hal_cuda_tracing_notify_submitted
           ⟨fh, ⟨some s₀, some t₀⟩, pool⟩ ⟨some h, tl⟩ =
         some ⟨fh, ⟨some s₀, some h⟩,
           pool.set t₀ { evAt pool t₀ with next_submission := some h }⟩ ∧
       QueueSpelled
         (pool.set t₀ { evAt pool t₀ with next_submission := some h })
         (some s₀) (Qs ++ [h :: L])) ∧
    (∀ (dev : Device) (Qs : List (List Nat)) (fh shead stail : Option Nat)
       (pool : List TracingEvent),
       QueueSpelled pool shead Qs →
       (∀ L ∈ Qs, L.length ≤ pool.length) →
       Qs.length ≤ pool.length →
       (∀ i ∈ Qs.flatten, collectOk dev i = true) →
       ((iree_hal_cuda_tracing_context_collect ⟨fh, ⟨shead, stail⟩, pool⟩
           dev).2.map Prod.fst = Qs.flatten ∧
        (Qs.flatten.Nodup →
          ((iree_hal_cuda_tracing_context_collect
            ⟨fh, ⟨shead, stail⟩, pool⟩ dev).2.map Prod.fst).Nodup))) := by
  refine ⟨notify_submitted_noop_on_empty_chain, ?_, ?_, ?_⟩
  · intro fh stail pool h tl L hsp hnsub
    exact notify_submitted_spec_empty_queue hsp hnsub
  · intro fh pool s₀ t₀ h tl Qs L hq hl hdrop hsp hne hnsub hbound
    exact notify_submitted_spec_nonempty_queue hq hl hdrop hsp hne hnsub
      hbound
  · intro dev Qs fh shead stail pool hq hlen hqlen hok
    have hids : (iree_hal_cuda_tracing_context_collect
        ⟨fh, ⟨shead, stail⟩, pool⟩ dev).2.map Prod.fst = Qs.flatten := by
      rw [iree_hal_cuda_tracing_context_collect_spec hq hlen hqlen]
      exact collect_ids_all_ok hok
    exact ⟨hids, fun hnd => hids ▸ hnd⟩

theorem claim_C6_witness :
    (iree_hal_cuda_tracing_notify_submitted
        ⟨some 2, ⟨none, none⟩,
          [⟨none, none, false⟩, ⟨none, none, false⟩, ⟨some 3, none, false⟩,
           ⟨none, none, false⟩]⟩
        ⟨none, none⟩ =
      some ⟨some 2, ⟨none, none⟩,
        [⟨none, none, false⟩, ⟨none, none, false⟩, ⟨some 3, none, false⟩,
         ⟨none, none, false⟩]⟩) ∧
    (iree_hal_cuda_tracing_notify_submitted
        ⟨some 2, ⟨none, none⟩,
          [⟨some 1, none, false⟩, ⟨none, none, false⟩,
           ⟨some 3, none, false⟩, ⟨none, none, false⟩]⟩
        ⟨some 0, some 1⟩ =
      some ⟨some 2, ⟨some 0, some 0⟩,
        [⟨some 1, none, false⟩, ⟨none, none, false⟩, ⟨some 3, none, false⟩,
         ⟨none, none, false⟩]⟩ ∧
      QueueSpelled
        [⟨some 1, none, false⟩, ⟨none, none, false⟩, ⟨some 3, none, false⟩,
         ⟨none, none, false⟩]
        (some 0) [[0, 1]]) ∧
    (iree_hal_cuda_tracing_notify_submitted
        ⟨none, ⟨some 0, some 0⟩,
          [⟨some 1, none, false⟩, ⟨none, none, false⟩,
           ⟨some 3, none, false⟩, ⟨none, none, false⟩]⟩
        ⟨some 2, some 3⟩ =
      some ⟨none, ⟨some 0, some 2⟩,
        ([⟨some 1, none, false⟩, ⟨none, none, false⟩, ⟨some 3, none, false⟩,
          ⟨none, none, false⟩] : List TracingEvent).set 0
          { evAt [⟨some 1, none, false⟩, ⟨none, none, false⟩,
              ⟨some 3, none, false⟩, ⟨none, none, false⟩] 0 with
            next_submission := some 2 }⟩ ∧
      QueueSpelled
        (([⟨some 1, none, false⟩, ⟨none, none, false⟩, ⟨some 3, none, false⟩,
           ⟨none, none, false⟩] : List TracingEvent).set 0
          { evAt [⟨some 1, none, false⟩, ⟨none, none, false⟩,
              ⟨some 3, none, false⟩, ⟨none, none, false⟩] 0 with
            next_submission := some 2 })
        (some 0) ([[0, 1]] ++ [[2, 3]])) ∧
    ((iree_hal_cuda_tracing_context_collect
        ⟨none, ⟨some 0, some 2⟩,
          [⟨some 1, some 2, false⟩, ⟨none, none, false⟩,
           ⟨some 3, none, false⟩, ⟨none, none, false⟩]⟩
        ⟨fun _ => true, fun _ => true, fun i => i⟩).2.map Prod.fst =
      ([[0, 1], [2, 3]] : List (List Nat)).flatten ∧
      (([[0, 1], [2, 3]] : List (List Nat)).flatten.Nodup →
        ((iree_hal_cuda_tracing_context_collect
          ⟨none, ⟨some 0, some 2⟩,
            [⟨some 1, some 2, false⟩, ⟨none, none, false⟩,
             ⟨some 3, none, false⟩, ⟨none, none, false⟩]⟩
          ⟨fun _ => true, fun _ => true, fun i => i⟩).2.map
            Prod.fst).Nodup)) :=
  ⟨claim_C6.1 _ ⟨none, none⟩ rfl,
   (claim_C6.2.1 (some 2) none _ 0 (some 1) [1] (by decide) (by decide)),
   (claim_C6.2.2.1 none _ 0 0 2 (some 3) [[0, 1]] [3] (by decide)
      (by decide) (by decide) (by decide) (by decide) (by decide)
      (by decide)),
   (claim_C6.2.2.2 ⟨fun _ => true, fun _ => true, fun i => i⟩
      [[0, 1], [2, 3]] none (some 0) (some 2) _ (by decide) (by decide)
      (by decide) (by decide))⟩

theorem getD_set_self_el {l : List EventList} {k : Nat} (hk : k < l.length)
    (x d : EventList) : (l.set k x).getD k d = x := by
  simp [List.getD, List.getElem?_set_self hk]

theorem getD_set_ne_el {l : List EventList} {k j : Nat} (h : k ≠ j)
    (x d : EventList) : (l.set k x).getD j d = l.getD j d := by
  simp [List.getD, List.getElem?_set_ne h]

theorem getD_set_self_ll {l : List (List Nat)} {k : Nat} (hk : k < l.length)
    (x d : List Nat) : (l.set k x).getD k d = x := by
  simp [List.getD, List.getElem?_set_self hk]

theorem getD_set_ne_ll {l : List (List Nat)} {k j : Nat} (h : k ≠ j)
    (x d : List Nat) : (l.set k x).getD j d = l.getD j d := by
  simp [List.getD, List.getElem?_set_ne h]

theorem Spells_congr_mem {pool pool' : List TracingEvent}
    {f : TracingEvent → Option Nat}
    (hlen : pool'.length = pool.length) :
    ∀ {start : Option Nat} {L : List Nat},
      Spells pool f start L →
      (∀ i ∈ L, f (evAt pool' i) = f (evAt pool i)) →
      Spells pool' f start L := by
  intro start L
  induction L generalizing start with
  | nil => intro h _; exact h
  | cons i L ih =>
    intro h hf
    obtain ⟨h1, h2, h3⟩ := h
    refine ⟨h1, hlen ▸ h2, ?_⟩
    rw [hf i (List.mem_cons_self i L)]
    exact ih h3 fun j hj => hf j (List.mem_cons_of_mem i hj)

theorem QueueSpelled_frame {pool pool' : List TracingEvent}
    (hlen : pool'.length = pool.length) :
    ∀ {start : Option Nat} {Qs : List (List Nat)},
      QueueSpelled pool start Qs →
      (∀ i ∈ Qs.flatten, nicb (evAt pool' i) = nicb (evAt pool i)) →
      (∀ i ∈ Qs.flatten, nsub (evAt pool' i) = nsub (evAt pool i)) →
      QueueSpelled pool' start Qs := by
  intro start Qs
  induction Qs generalizing start with
  | nil => intro h _ _; exact h
  | cons Q Qs ih =>
    intro h hnicb hnsub
    match Q, h with
    | q :: Lq, ⟨h1, h2, h3⟩ =>
      have hqmem : q ∈ ((q :: Lq) :: Qs).flatten := by simp
      refine ⟨h1, ?_, ?_⟩
      · refine Spells_congr_mem hlen h2 fun j hj => hnicb j ?_
        simp only [List.flatten_cons, List.mem_append]
        exact Or.inl hj
      · rw [hnsub q hqmem]
        refine ih h3 (fun j hj => hnicb j ?_) (fun j hj => hnsub j ?_) <;>
          · simp only [List.flatten_cons, List.mem_append]
            exact Or.inr hj

theorem queueHeads_mem_flatten {pool : List TracingEvent} :
    ∀ {Qs : List (List Nat)} {start : Option Nat},
      QueueSpelled pool start Qs →
      ∀ h ∈ queueHeads Qs, h ∈ Qs.flatten := by
  intro Qs
  induction Qs with
  | nil => intro start _ h hmem; cases hmem
  | cons Q Qs ih =>
    intro start hq h hmem
    match Q, hq with
    | q :: Lq, ⟨h1, h2, h3⟩ =>
      rcases List.mem_cons.mp hmem with rfl | hmem
      · simp [queueHeads]
      · simp only [List.flatten_cons, List.mem_append]
        exact Or.inr (ih h3 h hmem)

theorem queueHeads_nodup {pool : List TracingEvent} :
    ∀ {Qs : List (List Nat)} {start : Option Nat},
      QueueSpelled pool start Qs → Qs.flatten.Nodup →
      (queueHeads Qs).Nodup := by
  intro Qs
  induction Qs with
  | nil => intro start _ _; exact List.nodup_nil
  | cons Q Qs ih =>
    intro start hq hnd
    match Q, hq with
    | q :: Lq, ⟨h1, h2, h3⟩ =>
      simp only [List.flatten_cons] at hnd
      have hdisj := List.disjoint_of_nodup_append hnd
      refine List.Nodup.cons ?_ (ih h3 (List.Nodup.of_append_right hnd))
      intro hc
      exact hdisj (List.mem_cons_self q Lq)
        (queueHeads_mem_flatten h3 q hc)

theorem flatten_set_cons_perm :
    ∀ (CLs : List (List Nat)) (k : Nat) (e : Nat), k < CLs.length →
      ((CLs.set k (CLs.getD k [] ++ [e])).flatten).Perm
        (e :: CLs.flatten) := by
  intro CLs
  induction CLs with
  | nil => intro k e hk; cases hk
  | cons L CLs ih =>
    intro k e hk
    cases k with
    | zero =>
      simp only [List.set_cons_zero, List.flatten_cons, List.getD_cons_zero]
      rw [List.append_assoc]
      exact List.perm_middle
    | succ k =>
      simp only [List.set_cons_succ, List.flatten_cons, List.getD_cons_succ]
      have hperm := ih k e (by simpa using hk)
      exact (hperm.append_left L).trans List.perm_middle

theorem flatten_set_nil_perm :
    ∀ (CLs : List (List Nat)) (k : Nat), k < CLs.length →
      CLs.flatten.Perm (CLs.getD k [] ++ (CLs.set k []).flatten) := by
  intro CLs
  induction CLs with
  | nil => intro k hk; cases hk
  | cons L CLs ih =>
    intro k hk
    cases k with
    | zero =>
      simp only [List.set_cons_zero, List.flatten_cons, List.getD_cons_zero,
        List.nil_append]
      exact List.Perm.refl _
    | succ k =>
      simp only [List.set_cons_succ, List.flatten_cons, List.getD_cons_succ]
      have hperm := ih k (by simpa using hk)
      refine (hperm.append_left L).trans ?_
      rw [← List.append_assoc, ← List.append_assoc]
      exact (List.perm_append_comm).append_right _

theorem ws_evAt_set_preserve {pool : List TracingEvent} {h : Nat}
    {e : TracingEvent} (hn : e.was_submitted = (evAt pool h).was_submitted)
    (i : Nat) :
    (evAt (pool.set h e) i).was_submitted =
      (evAt pool i).was_submitted := by
  rw [evAt_set]
  by_cases hc : h = i ∧ h < pool.length
  · obtain ⟨rfl, hlt⟩ := hc
    rw [if_pos ⟨rfl, hlt⟩]
    exact hn
  · simp [hc]

theorem getD_mem_flatten :
    ∀ (CLs : List (List Nat)) (k : Nat), ∀ i ∈ CLs.getD k [],
      i ∈ CLs.flatten := by
  intro CLs
  induction CLs with
  | nil => intro k i hi; simp [List.getD] at hi
  | cons L CLs ih =>
    intro k i hi
    cases k with
    | zero =>
      simp only [List.getD_cons_zero] at hi
      simp [hi]
    | succ k =>
      simp only [List.getD_cons_succ] at hi
      simp only [List.flatten_cons, List.mem_append]
      exact Or.inr (ih k i hi)

theorem getD_append_left_el (l l' : List EventList) (k : Nat)
    (d : EventList) (h : k < l.length) :
    (l ++ l').getD k d = l.getD k d :=
  List.getD_append l l' d k h

theorem getD_append_head_el (l : List EventList) (x d : EventList) :
    (l ++ [x]).getD l.length d = x := by
  induction l with
  | nil => rfl
  | cons y l ih => simpa using ih

/-- The new-chain step: adding an empty handle preserves the invariant
with an empty node list appended. -/
theorem SysInv_newChain {ctx : TracingContext} {chains : List EventList}
    (hinv : SysInv ⟨ctx, chains⟩) :
    SysInv ⟨ctx, chains ++ [⟨none, none⟩]⟩ := by
  obtain ⟨F, CLs, Qs, hF, hlen, hch, hQ, htail, hnsub, hws, hperm⟩ := hinv
  dsimp only at hF hlen hch hQ htail hnsub hws hperm
  unfold SysInv
  dsimp only
  refine ⟨F, CLs ++ [[]], Qs, hF, by simpa using hlen, ?_, hQ, htail,
    by simpa using hnsub, hws, by simpa using hperm⟩
  intro k hk
  simp only [List.length_append, List.length_singleton] at hk
  by_cases hklt : k < chains.length
  · rw [show ((chains ++ [⟨none, none⟩] : List EventList)).getD k
        ⟨none, none⟩ = chains.getD k ⟨none, none⟩ from
      getD_append_left_el _ _ _ _ hklt]
    rw [show ((CLs ++ [[]] : List (List Nat))).getD k [] =
        CLs.getD k [] from List.getD_append _ _ _ _ (by omega)]
    exact hch k hklt
  · have hkeq : k = chains.length := by omega
    subst hkeq
    rw [getD_append_head_el]
    rw [show ((CLs ++ [[]] : List (List Nat))).getD chains.length [] =
        [] from by
      have : chains.length = CLs.length := hlen.symm
      rw [this]
      induction CLs with
      | nil => rfl
      | cons y l ih => simpa using ih]
    exact ⟨rfl, rfl⟩

/-- The insert-query step preserves the invariant: the popped free-list
head migrates to the back of the selected chain's node list. -/
theorem SysInv_insert {ctx ctx' : TracingContext} {chains : List EventList}
    {k : Nat} {el' : EventList} {id : Nat}
    (hinv : SysInv ⟨ctx, chains⟩) (hk : k < chains.length)
    (hok : iree_hal_cuda_stream_tracing_context_insert_query ctx
      (chains.getD k ⟨none, none⟩) = .ok (ctx', el', id)) :
    SysInv ⟨ctx', chains.set k el'⟩ := by
  obtain ⟨fh, ⟨shead, stail⟩, pool⟩ := ctx
  obtain ⟨F, CLs, Qs, hF, hlen, hch, hQ, htail, hnsub, hws, hperm⟩ := hinv
  dsimp only at hF hlen hch hQ htail hnsub hws hperm
  have hnd : (F ++ CLs.flatten ++ Qs.flatten).Nodup :=
    hperm.nodup_iff.mpr (List.nodup_range _)
  have hlt : ∀ i ∈ F ++ CLs.flatten ++ Qs.flatten, i < pool.length :=
    fun i hi => List.mem_range.mp (hperm.mem_iff.mp hi)
  cases fh with
  | none =>
    rw [insert_query_null_deref] at hok
    exact Except.noConfusion hok
  | some e =>
    cases F with
    | nil => simp [Spells] at hF
    | cons e₀ F' =>
      have he₀ : e = e₀ := Option.some.inj hF.1
      subst he₀
      have hbound : e < pool.length := hF.2.1
      have hFtail : Spells pool nicb (nicb (evAt pool e)) F' := hF.2.2
      cases F' with
      | nil =>
        rw [insert_query_assert_on_last _ hbound hFtail] at hok
        exact Except.noConfusion hok
      | cons r F'' =>
        have hn : (evAt pool e).next_in_command_buffer = some r := hFtail.1
        have hFr : Spells pool nicb (some r) (r :: F'') := by
          rw [← hn]; exact hFtail
        have hchk := hch k hk
        rcases hel : chains.getD k ⟨none, none⟩ with ⟨elh, elt⟩
        rw [hel] at hok hchk
        -- membership bookkeeping
        have hkC : k < CLs.length := by omega
        have hpermCL := flatten_set_nil_perm CLs k hkC
        have heF : e ∈ e :: r :: F'' := List.mem_cons_self _ _
        have hndF : (e :: r :: F'').Nodup :=
          (hnd.of_append_left).of_append_left
        have heF' : e ∉ r :: F'' := (List.nodup_cons.mp hndF).1
        have hdisjFC : (e :: r :: F'').Disjoint (CLs.flatten) :=
          List.disjoint_of_nodup_append hnd.of_append_left
        have hdisjQ : ((e :: r :: F'') ++ CLs.flatten).Disjoint
            Qs.flatten := List.disjoint_of_nodup_append hnd
        have heCL : e ∉ CLs.flatten := fun hc => hdisjFC heF hc
        have heQ : e ∉ Qs.flatten := fun hc =>
          hdisjQ (List.mem_append.mpr (Or.inl heF)) hc
        have hndCLflat : CLs.flatten.Nodup :=
          (hnd.of_append_left).of_append_right
        have hndCL : (CLs.getD k [] ++ (CLs.set k []).flatten).Nodup :=
          hpermCL.nodup_iff.mp hndCLflat
        have hLknd : (CLs.getD k []).Nodup := hndCL.of_append_left
        have hLkrest : (CLs.getD k []).Disjoint
            ((CLs.set k []).flatten) :=
          List.disjoint_of_nodup_append hndCL
        have hrest_sub : ∀ j, j ≠ k → ∀ i ∈ CLs.getD j [],
            i ∈ (CLs.set k []).flatten := by
          intro j hj i hi
          refine getD_mem_flatten _ j i ?_
          rw [getD_set_ne_ll (fun hc => hj hc.symm)]
          exact hi
        have hLk_mem : ∀ i ∈ CLs.getD k [], i ∈ CLs.flatten :=
          getD_mem_flatten CLs k
        -- the common new chain-list table
        have hperm_cons := flatten_set_cons_perm CLs k e hkC
        cases hLk : CLs.getD k [] with
        | nil =>
          rw [hLk] at hchk
          have helh : elh = none := hchk.1
          have helt : elt = none := by simpa using hchk.2
          subst helh; subst helt
          rw [insert_query_ok_empty_chain hbound hn] at hok
          simp only [Except.ok.injEq, Prod.mk.injEq] at hok
          obtain ⟨h1, h2, h3⟩ := hok
          subst h1; subst h2; subst h3
          have hpn : ∀ i, nsub (evAt (pool.set e { evAt pool e with
              next_in_command_buffer := none }) i) = nsub (evAt pool i) :=
            nsub_evAt_set_preserve (h := e) rfl
          have hpw : ∀ i, (evAt (pool.set e { evAt pool e with
              next_in_command_buffer := none }) i).was_submitted =
              (evAt pool i).was_submitted :=
            ws_evAt_set_preserve (h := e) rfl
          unfold SysInv
          dsimp only
          refine ⟨r :: F'', CLs.set k (CLs.getD k [] ++ [e]), Qs,
            ?_, ?_, ?_, ?_, ?_, ?_, ?_, ?_⟩
          · exact Spells_set_of_not_mem hFr heF'
          · simpa using hlen
          · intro j hj
            by_cases hjk : j = k
            · subst hjk
              rw [getD_set_self_el (by simpa using hk),
                getD_set_self_ll hkC, hLk]
              refine ⟨⟨rfl, by simpa using hbound, ?_⟩, rfl⟩
              rw [show nicb (evAt (pool.set e { evAt pool e with
                  next_in_command_buffer := none }) e) = none from by
                rw [evAt_set_self hbound]; rfl]
              rfl
            · rw [getD_set_ne_el (fun hc => hjk hc.symm),
                getD_set_ne_ll (fun hc => hjk hc.symm)]
              have hcj := hch j (by simpa using hj)
              refine ⟨Spells_set_of_not_mem hcj.1 ?_, hcj.2⟩
              intro hc
              exact heCL (getD_mem_flatten CLs j e hc)
          · refine QueueSpelled_frame (by simp) hQ ?_ (fun i _ => hpn i)
            intro i hi
            have hie : e ≠ i := fun hc => heQ (hc ▸ hi)
            rw [evAt_set_ne hie]
          · exact htail
          · intro i hi
            rw [hpn i]
            rcases List.mem_append.mp hi with hi | hi
            · exact hnsub i (List.mem_append.mpr (Or.inl
                (List.mem_cons_of_mem e hi)))
            · rcases List.mem_cons.mp (hperm_cons.mem_iff.mp hi)
                with rfl | hi'
              · exact hnsub _ (List.mem_append.mpr (Or.inl heF))
              · exact hnsub i (List.mem_append.mpr (Or.inr hi'))
          · intro i hi
            rw [hpw i]
            exact hws i (by simpa using hi)
          · rw [show (pool.set e { evAt pool e with
                next_in_command_buffer := none }).length = pool.length
              from by simp]
            exact (((hperm_cons.append_left (r :: F'')).append_right
              Qs.flatten).trans
              ((List.perm_middle).append_right Qs.flatten)).trans hperm
        | cons h₀ L' =>
          rw [hLk] at hchk
          have helh : elh = some h₀ := hchk.1.1
          subst helh
          obtain ⟨t, ht⟩ := Option.isSome_iff_exists.mp
            (show ((h₀ :: L').getLast?).isSome from by
              rw [List.getLast?_isSome]
              simp)
          have helt : elt = some t := by
            have h2 := hchk.2
            rw [ht] at h2
            exact h2
          subst helt
          have htLk : t ∈ h₀ :: L' := List.mem_of_mem_getLast? ht
          have htCL : t ∈ CLs.flatten := hLk_mem t (hLk ▸ htLk)
          have htb : t < pool.length := hlt t (by simp [htCL])
          have hte : t ≠ e := by
            intro hc; subst hc; exact heCL htCL
          rw [insert_query_ok_nonempty_chain hbound hn htb] at hok
          simp only [Except.ok.injEq, Prod.mk.injEq] at hok
          obtain ⟨h1, h2, h3⟩ := hok
          subst h1; subst h2; subst h3
          have heLk : e ∉ h₀ :: L' := fun hc =>
            heCL (hLk_mem e (hLk ▸ hc))
          have hchain₁ : Spells (pool.set e { evAt pool e with
              next_in_command_buffer := none }) nicb (some h₀)
              (h₀ :: L') :=
            Spells_set_of_not_mem (hLk ▸ hchk.1) heLk
          have hsplice : Spells ((pool.set e { evAt pool e with
              next_in_command_buffer := none }).set t
              { evAt (pool.set e { evAt pool e with
                  next_in_command_buffer := none }) t with
                next_in_command_buffer := some e }) nicb (some h₀)
              ((h₀ :: L') ++ [e]) := by
            refine Spells_splice hchain₁ ht
              (getLast?_not_mem_dropLast (hLk ▸ hLknd) ht) ?_
            refine ⟨rfl, by simpa using hbound, ?_⟩
            rw [show nicb (evAt ((pool.set e { evAt pool e with
                next_in_command_buffer := none }).set t
                { evAt (pool.set e { evAt pool e with
                    next_in_command_buffer := none }) t with
                  next_in_command_buffer := some e }) e) = none from by
              rw [evAt_set_ne hte, evAt_set_self hbound]; rfl]
            rfl
          have hpn1 : ∀ i, nsub (evAt (pool.set e { evAt pool e with
              next_in_command_buffer := none }) i) = nsub (evAt pool i) :=
            nsub_evAt_set_preserve (h := e) rfl
          have hpn2 : ∀ i, nsub (evAt ((pool.set e { evAt pool e with
              next_in_command_buffer := none }).set t
              { evAt (pool.set e { evAt pool e with
                  next_in_command_buffer := none }) t with
                next_in_command_buffer := some e }) i) =
              nsub (evAt (pool.set e { evAt pool e with
                next_in_command_buffer := none }) i) :=
            nsub_evAt_set_preserve (h := t) rfl
          have hpn : ∀ i, nsub (evAt ((pool.set e { evAt pool e with
              next_in_command_buffer := none }).set t
              { evAt (pool.set e { evAt pool e with
                  next_in_command_buffer := none }) t with
                next_in_command_buffer := some e }) i) =
              nsub (evAt pool i) := fun i => (hpn2 i).trans (hpn1 i)
          have hpw1 : ∀ i, (evAt (pool.set e { evAt pool e with
              next_in_command_buffer := none }) i).was_submitted =
              (evAt pool i).was_submitted :=
            ws_evAt_set_preserve (h := e) rfl
          have hpw2 : ∀ i, (evAt ((pool.set e { evAt pool e with
              next_in_command_buffer := none }).set t
              { evAt (pool.set e { evAt pool e with
                  next_in_command_buffer := none }) t with
                next_in_command_buffer := some e }) i).was_submitted =
              (evAt (pool.set e { evAt pool e with
                next_in_command_buffer := none }) i).was_submitted :=
            ws_evAt_set_preserve (h := t) rfl
          have hpw : ∀ i, (evAt ((pool.set e { evAt pool e with
              next_in_command_buffer := none }).set t
              { evAt (pool.set e { evAt pool e with
                  next_in_command_buffer := none }) t with
                next_in_command_buffer := some e }) i).was_submitted =
              (evAt pool i).was_submitted := fun i =>
            (hpw2 i).trans (hpw1 i)
          unfold SysInv
          dsimp only
          refine ⟨r :: F'', CLs.set k (CLs.getD k [] ++ [e]), Qs,
            ?_, ?_, ?_, ?_, ?_, ?_, ?_, ?_⟩
          · have htF : t ∉ r :: F'' := by
              intro hc
              exact hdisjFC (List.mem_cons_of_mem e hc) htCL
            exact Spells_set_of_not_mem
              (Spells_set_of_not_mem hFr heF') htF
          · simpa using hlen
          · intro j hj
            by_cases hjk : j = k
            · subst hjk
              rw [getD_set_self_el (by simpa using hk),
                getD_set_self_ll hkC, hLk]
              exact ⟨hLk ▸ hsplice, by rw [List.getLast?_concat]⟩
            · rw [getD_set_ne_el (fun hc => hjk hc.symm),
                getD_set_ne_ll (fun hc => hjk hc.symm)]
              have hcj := hch j (by simpa using hj)
              have hjrest := hrest_sub j hjk
              refine ⟨?_, hcj.2⟩
              refine Spells_congr_mem (by simp) hcj.1 ?_
              intro i hi
              have hie : i ≠ e := fun hc =>
                heCL (getD_mem_flatten CLs j e (hc ▸ hi))
              have hit : i ≠ t := fun hc => by
                subst hc
                exact hLkrest (hLk ▸ htLk) (hjrest i hi)
              rw [evAt_set_ne (fun hc => hit hc.symm),
                evAt_set_ne (fun hc => hie hc.symm)]
          · refine QueueSpelled_frame (by simp) hQ ?_ (fun i _ => hpn i)
            intro i hi
            have hie : i ≠ e := fun hc => heQ (hc ▸ hi)
            have hit : i ≠ t := fun hc =>
              hdisjQ (List.mem_append.mpr (Or.inr htCL)) (hc ▸ hi)
            rw [evAt_set_ne (fun hc => hit hc.symm),
              evAt_set_ne (fun hc => hie hc.symm)]
          · exact htail
          · intro i hi
            rw [hpn i]
            rcases List.mem_append.mp hi with hi | hi
            · exact hnsub i (List.mem_append.mpr (Or.inl
                (List.mem_cons_of_mem e hi)))
            · rcases List.mem_cons.mp (hperm_cons.mem_iff.mp hi)
                with rfl | hi'
              · exact hnsub _ (List.mem_append.mpr (Or.inl heF))
              · exact hnsub i (List.mem_append.mpr (Or.inr hi'))
          · intro i hi
            rw [hpw i]
            exact hws i (by simpa using hi)
          · rw [show ((pool.set e { evAt pool e with
                next_in_command_buffer := none }).set t
                { evAt (pool.set e { evAt pool e with
                    next_in_command_buffer := none }) t with
                  next_in_command_buffer := some e }).length = pool.length
              from by simp]
            exact (((hperm_cons.append_left (r :: F'')).append_right
              Qs.flatten).trans
              ((List.perm_middle).append_right Qs.flatten)).trans hperm

/-- The notify-submitted step preserves the invariant: the chain's node
list moves to the back of the queue (or the handle is discarded unchanged
when the chain is empty). -/
theorem SysInv_notify {ctx ctx' : TracingContext} {chains : List EventList}
    {k : Nat}
    (hinv : SysInv ⟨ctx, chains⟩) (hk : k < chains.length)
    (hok : iree_hal_cuda_tracing_notify_submitted ctx
      (chains.getD k ⟨none, none⟩) = some ctx') :
    SysInv ⟨ctx', chains.set k ⟨none, none⟩⟩ := by
  obtain ⟨fh, ⟨shead, stail⟩, pool⟩ := ctx
  obtain ⟨F, CLs, Qs, hF, hlen, hch, hQ, htail, hnsub, hws, hperm⟩ := hinv
  dsimp only at hF hlen hch hQ htail hnsub hws hperm
  have hnd : (F ++ CLs.flatten ++ Qs.flatten).Nodup :=
    hperm.nodup_iff.mpr (List.nodup_range _)
  have hlt : ∀ i ∈ F ++ CLs.flatten ++ Qs.flatten, i < pool.length :=
    fun i hi => List.mem_range.mp (hperm.mem_iff.mp hi)
  have hchk := hch k hk
  rcases hel : chains.getD k ⟨none, none⟩ with ⟨elh, elt⟩
  rw [hel] at hok hchk
  have hkC : k < CLs.length := by omega
  have hpermCL := flatten_set_nil_perm CLs k hkC
  have hchain_sub : ∀ i ∈ CLs.getD k [], i ∈ CLs.flatten :=
    getD_mem_flatten CLs k
  have hchWF : ∀ j, j < chains.length → j ≠ k →
      ChainWF pool ((chains.set k (⟨none, none⟩ : EventList)).getD j
        ⟨none, none⟩) ((CLs.set k []).getD j []) := by
    intro j hj hjk
    rw [getD_set_ne_el (fun hc => hjk hc.symm),
      getD_set_ne_ll (fun hc => hjk hc.symm)]
    exact hch j hj
  cases hLk : CLs.getD k [] with
  | nil =>
    rw [hLk] at hchk
    have helh : elh = none := hchk.1
    subst helh
    rw [notify_submitted_noop_on_empty_chain _ _ rfl] at hok
    have hc' : ctx' = ⟨fh, ⟨shead, stail⟩, pool⟩ :=
      (Option.some.inj hok).symm
    subst hc'
    unfold SysInv
    dsimp only
    refine ⟨F, CLs.set k [], Qs, hF, by simpa using hlen, ?_, hQ, htail,
      ?_, hws, ?_⟩
    · intro j hj
      by_cases hjk : j = k
      · subst hjk
        rw [getD_set_self_el (by simpa using hk), getD_set_self_ll hkC]
        exact ⟨rfl, rfl⟩
      · exact hchWF j (by simpa using hj) hjk
    · intro i hi
      refine hnsub i ?_
      rcases List.mem_append.mp hi with hi | hi
      · exact List.mem_append.mpr (Or.inl hi)
      · refine List.mem_append.mpr (Or.inr (hpermCL.mem_iff.mpr ?_))
        rw [hLk]
        simpa using hi
    · have hx : CLs.flatten.Perm ((CLs.set k []).flatten) := by
        rw [hLk] at hpermCL
        simpa using hpermCL
      rw [← Multiset.coe_eq_coe] at hx hperm ⊢
      simp only [← Multiset.coe_add] at hx hperm ⊢
      rw [← hperm, hx]
  | cons h₀ L' =>
    rw [hLk] at hchk
    have helh : elh = some h₀ := hchk.1.1
    subst helh
    have hh₀CL : h₀ ∈ CLs.flatten :=
      hchain_sub h₀ (hLk ▸ List.mem_cons_self h₀ L')
    have hh₀nsub : nsub (evAt pool h₀) = none :=
      hnsub h₀ (List.mem_append.mpr (Or.inr hh₀CL))
    have hdisjQ : (F ++ CLs.flatten).Disjoint Qs.flatten :=
      List.disjoint_of_nodup_append hnd
    cases Qs with
    | nil =>
      have hsh : shead = none := hQ
      subst hsh
      obtain ⟨heq, hQ'⟩ := @notify_submitted_spec_empty_queue
        fh stail pool h₀ elt L' hchk.1 hh₀nsub
      rw [heq] at hok
      have hc' : ctx' = ⟨fh, ⟨some h₀, some h₀⟩, pool⟩ :=
        (Option.some.inj hok).symm
      subst hc'
      unfold SysInv
      dsimp only
      refine ⟨F, CLs.set k [], [h₀ :: L'], hF, by simpa using hlen, ?_,
        hQ', ?_, ?_, hws, ?_⟩
      · intro j hj
        by_cases hjk : j = k
        · subst hjk
          rw [getD_set_self_el (by simpa using hk), getD_set_self_ll hkC]
          exact ⟨rfl, rfl⟩
        · exact hchWF j (by simpa using hj) hjk
      · intro _
        simp [queueHeads]
      · intro i hi
        refine hnsub i ?_
        rcases List.mem_append.mp hi with hi | hi
        · exact List.mem_append.mpr (Or.inl hi)
        · refine List.mem_append.mpr (Or.inr (hpermCL.mem_iff.mpr ?_))
          rw [hLk]
          simp only [List.mem_append]
          exact Or.inr hi
      · have hx : CLs.flatten.Perm
            ((h₀ :: L') ++ (CLs.set k []).flatten) := hLk ▸ hpermCL
        rw [← Multiset.coe_eq_coe] at hx hperm ⊢
        simp only [List.flatten_cons, List.flatten_nil, List.append_nil,
          ← Multiset.coe_add] at hx hperm ⊢
        rw [← hperm, hx]
        abel
    | cons Q₀ Qs' =>
      obtain ⟨q, Lq, rfl⟩ : ∃ q Lq, Q₀ = q :: Lq := by
        match Q₀, hQ with
        | q :: Lq, _ => exact ⟨q, Lq, rfl⟩
      have hsh : shead = some q := hQ.1
      subst hsh
      have hQnd : ((q :: Lq) :: Qs').flatten.Nodup :=
        (hnd.of_append_right)
      have hheads_nd : (queueHeads ((q :: Lq) :: Qs')).Nodup :=
        queueHeads_nodup hQ hQnd
      obtain ⟨t₀, ht₀⟩ := Option.isSome_iff_exists.mp
        (show ((queueHeads ((q :: Lq) :: Qs')).getLast?).isSome from by
          rw [List.getLast?_isSome]
          simp [queueHeads])
      have hstail : stail = some t₀ := by
        rw [htail (by simp), ht₀]
      subst hstail
      have ht₀Q : t₀ ∈ ((q :: Lq) :: Qs').flatten :=
        queueHeads_mem_flatten hQ t₀ (List.mem_of_mem_getLast? ht₀)
      have hh₀ne : h₀ ≠ t₀ := by
        intro hc
        subst hc
        exact hdisjQ (List.mem_append.mpr (Or.inr hh₀CL)) ht₀Q
      have ht₀b : t₀ < pool.length := hlt t₀ (by
        simp only [List.append_assoc, List.mem_append]
        exact Or.inr (Or.inr ht₀Q))
      obtain ⟨heq, hQ'⟩ := @notify_submitted_spec_nonempty_queue
        fh pool q t₀ h₀ elt ((q :: Lq) :: Qs') L' hQ ht₀
        (getLast?_not_mem_dropLast hheads_nd ht₀)
        hchk.1 hh₀ne hh₀nsub ht₀b
      rw [heq] at hok
      have hc' : ctx' = ⟨fh, ⟨some q, some h₀⟩,
          pool.set t₀ { evAt pool t₀ with next_submission := some h₀ }⟩ :=
        (Option.some.inj hok).symm
      subst hc'
      have hplen : (pool.set t₀ { evAt pool t₀ with
          next_submission := some h₀ }).length = pool.length := by simp
      have hpnicb : ∀ i, nicb (evAt (pool.set t₀ { evAt pool t₀ with
          next_submission := some h₀ }) i) = nicb (evAt pool i) :=
        nicb_evAt_set_preserve (h := t₀) rfl
      have hpws : ∀ i, (evAt (pool.set t₀ { evAt pool t₀ with
          next_submission := some h₀ }) i).was_submitted =
          (evAt pool i).was_submitted :=
        ws_evAt_set_preserve (h := t₀) rfl
      unfold SysInv
      dsimp only
      refine ⟨F, CLs.set k [], (q :: Lq) :: Qs' ++ [h₀ :: L'],
        Spells_congr hplen hpnicb hF, by simpa using hlen, ?_, ?_, ?_,
        ?_, ?_, ?_⟩
      · intro j hj
        by_cases hjk : j = k
        · subst hjk
          rw [getD_set_self_el (by simpa using hk), getD_set_self_ll hkC]
          exact ⟨rfl, rfl⟩
        · have hcj := hchWF j (by simpa using hj) hjk
          exact ⟨Spells_congr hplen hpnicb hcj.1, hcj.2⟩
      · exact hQ'
      · intro _
        rw [show queueHeads ((q :: Lq) :: Qs' ++ [h₀ :: L']) =
            queueHeads ((q :: Lq) :: Qs') ++ [h₀] from by
          simp [queueHeads]]
        rw [List.getLast?_concat]
      · intro i hi
        have hit : t₀ ≠ i := by
          intro hc
          subst hc
          refine hdisjQ ?_ ht₀Q
          rcases List.mem_append.mp hi with hi | hi
          · exact List.mem_append.mpr (Or.inl hi)
          · refine List.mem_append.mpr (Or.inr (hpermCL.mem_iff.mpr ?_))
            rw [hLk]
            simp only [List.mem_append]
            exact Or.inr hi
        rw [show nsub (evAt (pool.set t₀ { evAt pool t₀ with
            next_submission := some h₀ }) i) = nsub (evAt pool i) from by
          rw [evAt_set_ne hit]]
        refine hnsub i ?_
        rcases List.mem_append.mp hi with hi | hi
        · exact List.mem_append.mpr (Or.inl hi)
        · refine List.mem_append.mpr (Or.inr (hpermCL.mem_iff.mpr ?_))
          rw [hLk]
          simp only [List.mem_append]
          exact Or.inr hi
      · intro i hi
        rw [hpws i]
        exact hws i (by simpa using hi)
      · rw [hplen]
        have hx : CLs.flatten.Perm
            ((h₀ :: L') ++ (CLs.set k []).flatten) := hLk ▸ hpermCL
        rw [← Multiset.coe_eq_coe] at hx hperm ⊢
        simp only [List.flatten_append, List.flatten_cons,
          List.flatten_nil, List.append_nil, ← Multiset.coe_add]
          at hx hperm ⊢
        rw [← hperm, hx]
        abel

/-- The free step preserves the invariant: the chain's node list moves to
the front of the free list (or the handle is discarded unchanged when the
chain is empty). -/
theorem SysInv_free {ctx ctx' : TracingContext} {chains : List EventList}
    {k : Nat} {el' : EventList} {ns : List (Nat × Int)}
    (hinv : SysInv ⟨ctx, chains⟩) (hk : k < chains.length)
    (hok : iree_hal_cuda_tracing_free ctx
      (chains.getD k ⟨none, none⟩) = some (ctx', el', ns)) :
    SysInv ⟨ctx', chains.set k ⟨none, none⟩⟩ := by
  obtain ⟨fh, ⟨shead, stail⟩, pool⟩ := ctx
  obtain ⟨F, CLs, Qs, hF, hlen, hch, hQ, htail, hnsub, hws, hperm⟩ := hinv
  dsimp only at hF hlen hch hQ htail hnsub hws hperm
  have hnd : (F ++ CLs.flatten ++ Qs.flatten).Nodup :=
    hperm.nodup_iff.mpr (List.nodup_range _)
  have hlt : ∀ i ∈ F ++ CLs.flatten ++ Qs.flatten, i < pool.length :=
    fun i hi => List.mem_range.mp (hperm.mem_iff.mp hi)
  have hchk := hch k hk
  rcases hel : chains.getD k ⟨none, none⟩ with ⟨elh, elt⟩
  rw [hel] at hok hchk
  have hkC : k < CLs.length := by omega
  have hpermCL := flatten_set_nil_perm CLs k hkC
  have hchain_sub : ∀ i ∈ CLs.getD k [], i ∈ CLs.flatten :=
    getD_mem_flatten CLs k
  have hndCL : (CLs.getD k [] ++ (CLs.set k []).flatten).Nodup :=
    hpermCL.nodup_iff.mp ((hnd.of_append_left).of_append_right)
  have hLkrest : (CLs.getD k []).Disjoint ((CLs.set k []).flatten) :=
    List.disjoint_of_nodup_append hndCL
  have hchWF : ∀ j, j < chains.length → j ≠ k →
      ChainWF pool ((chains.set k (⟨none, none⟩ : EventList)).getD j
        ⟨none, none⟩) ((CLs.set k []).getD j []) := by
    intro j hj hjk
    rw [getD_set_ne_el (fun hc => hjk hc.symm),
      getD_set_ne_ll (fun hc => hjk hc.symm)]
    exact hch j hj
  cases hLk : CLs.getD k [] with
  | nil =>
    rw [hLk] at hchk
    have helh : elh = none := hchk.1
    subst helh
    rw [tracing_free_noop_on_empty_chain _ _ rfl] at hok
    have h' := Option.some.inj hok
    obtain ⟨h1, h2, h3⟩ : (⟨fh, ⟨shead, stail⟩, pool⟩ : TracingContext) =
        ctx' ∧ (⟨none, elt⟩ : EventList) = el' ∧
        ([] : List (Nat × Int)) = ns := by
      simpa using h'
    subst h1
    unfold SysInv
    dsimp only
    refine ⟨F, CLs.set k [], Qs, hF, by simpa using hlen, ?_, hQ, htail,
      ?_, hws, ?_⟩
    · intro j hj
      by_cases hjk : j = k
      · subst hjk
        rw [getD_set_self_el (by simpa using hk), getD_set_self_ll hkC]
        exact ⟨rfl, rfl⟩
      · exact hchWF j (by simpa using hj) hjk
    · intro i hi
      refine hnsub i ?_
      rcases List.mem_append.mp hi with hi | hi
      · exact List.mem_append.mpr (Or.inl hi)
      · refine List.mem_append.mpr (Or.inr (hpermCL.mem_iff.mpr ?_))
        rw [hLk]
        simpa using hi
    · have hx : CLs.flatten.Perm ((CLs.set k []).flatten) := by
        rw [hLk] at hpermCL
        simpa using hpermCL
      rw [← Multiset.coe_eq_coe] at hx hperm ⊢
      simp only [← Multiset.coe_add] at hx hperm ⊢
      rw [← hperm, hx]
  | cons h₀ L' =>
    rw [hLk] at hchk
    have helh : elh = some h₀ := hchk.1.1
    subst helh
    have hh₀b : h₀ < pool.length := hchk.1.2.1
    have hh₀ws : (evAt pool h₀).was_submitted = false := hws h₀ hh₀b
    have hndLk : (h₀ :: L').Nodup := hLk ▸ hndCL.of_append_left
    have hsubLk : ∀ i ∈ h₀ :: L', i ∈ CLs.flatten := fun i hi =>
      hchain_sub i (hLk ▸ hi)
    have hlenLk : (h₀ :: L').length ≤ pool.length := by
      have hsp : (h₀ :: L').Subperm (List.range pool.length) :=
        List.subperm_of_subset hndLk (fun i hi =>
          List.mem_range.mpr (hlt i (List.mem_append.mpr (Or.inl
            (List.mem_append.mpr (Or.inr (hsubLk i hi)))))))
      simpa using hsp.length_le
    obtain ⟨t, ht⟩ := Option.isSome_iff_exists.mp
      (show ((h₀ :: L').getLast?).isSome from by
        rw [List.getLast?_isSome]
        simp)
    have helt : elt = some t := by
      have h2 := hchk.2
      rw [ht] at h2
      exact h2
    subst helt
    have htLk : t ∈ h₀ :: L' := List.mem_of_mem_getLast? ht
    have htCL : t ∈ CLs.flatten := hsubLk t htLk
    cases fh with
    | none =>
      have hF0 : F = [] := by
        cases F with
        | nil => rfl
        | cons a F' => exact absurd hF.1 (by simp)
      subst hF0
      rw [@tracing_free_spec_empty_freelist shead stail pool h₀ (some t)
        L' hchk.1 hh₀ws hlenLk] at hok
      have h' := Option.some.inj hok
      obtain ⟨h1, h2, h3⟩ : (⟨some h₀, ⟨shead, stail⟩, pool⟩ :
          TracingContext) = ctx' ∧
          (⟨some h₀, some t⟩ : EventList) = el' ∧
          ((h₀ :: L').map fun i => ((i, 0) : Nat × Int)) = ns := by
        simpa using h'
      subst h1
      unfold SysInv
      dsimp only
      refine ⟨h₀ :: L', CLs.set k [], Qs, hchk.1, by simpa using hlen,
        ?_, hQ, htail, ?_, hws, ?_⟩
      · intro j hj
        by_cases hjk : j = k
        · subst hjk
          rw [getD_set_self_el (by simpa using hk), getD_set_self_ll hkC]
          exact ⟨rfl, rfl⟩
        · exact hchWF j (by simpa using hj) hjk
      · intro i hi
        refine hnsub i ?_
        rcases List.mem_append.mp hi with hi | hi
        · exact List.mem_append.mpr (Or.inr (hsubLk i hi))
        · refine List.mem_append.mpr (Or.inr (hpermCL.mem_iff.mpr ?_))
          rw [hLk]
          simp only [List.mem_append]
          exact Or.inr hi
      · have hx : CLs.flatten.Perm
            ((h₀ :: L') ++ (CLs.set k []).flatten) := hLk ▸ hpermCL
        rw [← Multiset.coe_eq_coe] at hx hperm ⊢
        simp only [List.nil_append, ← Multiset.coe_add] at hx hperm ⊢
        rw [← hperm, hx]
    | some f₀ =>
      have hdisjFC : F.Disjoint CLs.flatten :=
        List.disjoint_of_nodup_append hnd.of_append_left
      have htF : t ∉ F := fun hc => hdisjFC hc htCL
      obtain ⟨heq, hsp₂⟩ := @tracing_free_spec_splice shead stail pool
        h₀ t f₀ L' F hchk.1 hh₀ws hlenLk ht hndLk hF htF
      rw [heq] at hok
      have h' := Option.some.inj hok
      obtain ⟨h1, h2, h3⟩ : (⟨some h₀, ⟨shead, stail⟩,
          (pool.set h₀ { evAt pool h₀ with
              next_submission := none, was_submitted := false }).set t
            { evAt (pool.set h₀ { evAt pool h₀ with
                next_submission := none, was_submitted := false }) t with
              next_in_command_buffer := some f₀ }⟩ : TracingContext) =
          ctx' ∧ (⟨none, none⟩ : EventList) = el' ∧
          ((h₀ :: L').map fun i => ((i, 0) : Nat × Int)) = ns := by
        simpa using h'
      subst h1
      have hplen : ((pool.set h₀ { evAt pool h₀ with
          next_submission := none, was_submitted := false }).set t
          { evAt (pool.set h₀ { evAt pool h₀ with
              next_submission := none, was_submitted := false }) t with
            next_in_command_buffer := some f₀ }).length = pool.length := by
        simp
      have hfar : ∀ i, i ≠ h₀ → i ≠ t →
          evAt ((pool.set h₀ { evAt pool h₀ with
            next_submission := none, was_submitted := false }).set t
            { evAt (pool.set h₀ { evAt pool h₀ with
                next_submission := none, was_submitted := false }) t with
              next_in_command_buffer := some f₀ }) i = evAt pool i := by
        intro i hih hit
        rw [evAt_set_ne (fun hc => hit hc.symm),
          evAt_set_ne (fun hc => hih hc.symm)]
      have htb : t < pool.length := hlt t (List.mem_append.mpr (Or.inl
        (List.mem_append.mpr (Or.inr htCL))))
      have hpn : ∀ i, i ≠ h₀ →
          nsub (evAt ((pool.set h₀ { evAt pool h₀ with
            next_submission := none, was_submitted := false }).set t
            { evAt (pool.set h₀ { evAt pool h₀ with
                next_submission := none, was_submitted := false }) t with
              next_in_command_buffer := some f₀ }) i) =
          nsub (evAt pool i) := by
        intro i hih
        by_cases hit : i = t
        · subst hit
          rw [evAt_set_self (by simpa using htb),
            evAt_set_ne (fun hc => hih hc.symm)]
          rfl
        · rw [hfar i hih hit]
      have hpw : ∀ i, i ≠ h₀ →
          (evAt ((pool.set h₀ { evAt pool h₀ with
            next_submission := none, was_submitted := false }).set t
            { evAt (pool.set h₀ { evAt pool h₀ with
                next_submission := none, was_submitted := false }) t with
              next_in_command_buffer := some f₀ }) i).was_submitted =
          (evAt pool i).was_submitted := by
        intro i hih
        by_cases hit : i = t
        · subst hit
          rw [evAt_set_self (by simpa using htb),
            evAt_set_ne (fun hc => hih hc.symm)]
        · rw [hfar i hih hit]
      have hdisjQ : (F ++ CLs.flatten).Disjoint Qs.flatten :=
        List.disjoint_of_nodup_append hnd
      unfold SysInv
      dsimp only
      refine ⟨(h₀ :: L') ++ F, CLs.set k [], Qs, hsp₂,
        by simpa using hlen, ?_, ?_, htail, ?_, ?_, ?_⟩
      · intro j hj
        by_cases hjk : j = k
        · subst hjk
          rw [getD_set_self_el (by simpa using hk), getD_set_self_ll hkC]
          exact ⟨rfl, rfl⟩
        · have hcj := hchWF j (by simpa using hj) hjk
          refine ⟨Spells_congr_mem hplen hcj.1 ?_, hcj.2⟩
          intro i hi
          have hirest : i ∈ (CLs.set k []).flatten :=
            getD_mem_flatten _ j i hi
          have hih : i ≠ h₀ := fun hc =>
            hLkrest (hLk ▸ List.mem_cons_self h₀ L') (hc ▸ hirest)
          have hit : i ≠ t := fun hc =>
            hLkrest (hLk ▸ htLk) (hc ▸ hirest)
          rw [hfar i hih hit]
      · refine QueueSpelled_frame hplen hQ ?_ ?_ <;>
          · intro i hi
            have hih : i ≠ h₀ := fun hc => hdisjQ
              (List.mem_append.mpr (Or.inr (hsubLk h₀
                (List.mem_cons_self h₀ L')))) (hc ▸ hi)
            have hit : i ≠ t := fun hc => hdisjQ
              (List.mem_append.mpr (Or.inr htCL)) (hc ▸ hi)
            rw [hfar i hih hit]
      · intro i hi
        by_cases hih : i = h₀
        · subst hih
          exact (@evAt_splice_head pool i t (some f₀) hh₀b).1
        · rw [hpn i hih]
          refine hnsub i ?_
          rcases List.mem_append.mp hi with hi | hi
          · rcases List.mem_append.mp hi with hi | hi
            · exact List.mem_append.mpr (Or.inr (hsubLk i hi))
            · exact List.mem_append.mpr (Or.inl hi)
          · refine List.mem_append.mpr (Or.inr (hpermCL.mem_iff.mpr ?_))
            rw [hLk]
            simp only [List.mem_append]
            exact Or.inr hi
      · intro i hi
        by_cases hih : i = h₀
        · subst hih
          exact (@evAt_splice_head pool i t (some f₀) hh₀b).2
        · rw [hpw i hih]
          exact hws i (by simpa using hi)
      · rw [hplen]
        have hx : CLs.flatten.Perm
            ((h₀ :: L') ++ (CLs.set k []).flatten) := hLk ▸ hpermCL
        rw [← Multiset.coe_eq_coe] at hx hperm ⊢
        simp only [← Multiset.coe_add] at hx hperm ⊢
        rw [← hperm, hx]
        abel

/-- Every protocol step preserves the strengthened partition invariant. -/
theorem SysInv_preserved {s s' : SysState} (hinv : SysInv s)
    (hstep : SysStep s s') : SysInv s' := by
  obtain ⟨ctx, chains⟩ := s
  cases hstep with
  | newChain => exact SysInv_newChain hinv
  | insert k ctx' el' id hk hok => exact SysInv_insert hinv hk hok
  | notify k ctx' hk hok => exact SysInv_notify hinv hk hok
  | free k ctx' el' ns hk hok => exact SysInv_free hinv hk hok

/-- A freshly allocated context satisfies the invariant: the whole pool is
the free list, there are no chains and the queue is empty. -/
theorem SysInv_init {n : Nat} (hn : 1 ≤ n) :
    SysInv ⟨iree_hal_cuda_tracing_context_allocate n, []⟩ := by
  unfold SysInv
  dsimp only
  refine ⟨List.range n, [], [], ?_, rfl, ?_, ?_, ?_, ?_, ?_, ?_⟩
  · rw [List.range_eq_range']
    exact allocate_spells_aux n 0 (by omega) hn
  · intro k hk
    exact absurd hk (by simp)
  · rfl
  · intro h
    exact absurd rfl h
  · intro i hi
    have hin : i < n := by
      simpa using hi
    rw [evAt_allocate hin]
    rfl
  · intro i hi
    rw [allocate_pool_length] at hi
    rw [evAt_allocate hi]
  · simp [allocate_pool_length]

/-- Every reachable protocol state satisfies the invariant. -/
theorem SysReachable_SysInv {s : SysState} (h : SysReachable s) :
    SysInv s := by
  induction h with
  | init n hn => exact SysInv_init hn
  | step hr hstep ih => exact SysInv_preserved ih hstep

/-- The invariant implies the partition property. -/
theorem SysInv_EventPartition {s : SysState} (hinv : SysInv s) :
    EventPartition s := by
  obtain ⟨F, CLs, Qs, hF, hlen, hch, hQ, _, _, _, hperm⟩ := hinv
  exact ⟨F, CLs, Qs, hF, hlen, hch, hQ, hperm⟩

/-- C5: in every reachable state of the client protocol — any sequence of
chain creations, successful InsertQuery calls, NotifySubmitted calls and
Free calls starting from a fresh context — the pool's primitives are
partitioned among the free list, the held (unsubmitted) chains and the
submission queue: the node lists spelled by the intrusive links
concatenate to a permutation of all pool indices, so each primitive lies
in exactly one structure, with no duplication and no loss. -/
theorem claim_C5 {s : SysState} (h : SysReachable s) : EventPartition s :=
  SysInv_EventPartition (SysReachable_SysInv h)

/-- Witness for C5 at a concrete reachable state: a freshly allocated
context of capacity 2 with no chains. -/
theorem claim_C5_witness :
    EventPartition ⟨iree_hal_cuda_tracing_context_allocate 2, []⟩ :=
  claim_C5 (SysReachable.init 2 (by omega))
